import Mathlib

/-!
Verification development for the morphotactics compiler
(`morphotactics/morphotactics.py`, `morphotactics/slot.py`,
`morphotactics/stem_guesser.py`).

The Python sources compile a set of `Slot` objects (groups of weighted
rewrite rules with continuation classes) into a single weighted FST over
the tropical semiring, driven by a generic depth-first search executed
twice (pass 1 materializes each reachable slot, pass 2 wires the
continuation arcs), followed by verification, epsilon removal and a
conditional optimization.

The WFST substrate itself (pynini / pywrapfst / OpenFST) is not part of
the repository's sources; the operations the compiler uses are modelled
from the specification's substrate contract (each such definition carries
a doc comment starting with "Modelled from the spec:").  Everything else
is translated directly from the Python sources.
-/

deriving instance DecidableEq for Except

namespace Morphotactics

/-- A weight of the tropical semiring: either a finite rational weight or
`inf`, the semiring zero `+∞` (non-accepting / absent). -/
inductive Weight where
  | fin (w : ℚ) : Weight
  | inf : Weight
deriving DecidableEq

/-- Tropical `⊕` (min); `inf` is the neutral element. -/
def Weight.plus : Weight → Weight → Weight
  | .inf, w => w
  | w, .inf => w
  | .fin a, .fin b => .fin (min a b)

/-- Tropical `⊗` (addition of costs); `inf` is absorbing. -/
def Weight.times : Weight → Weight → Weight
  | .fin a, .fin b => .fin (a + b)
  | _, _ => .inf

/-- One arc of the master automaton: input label, output label, weight and
destination vertex.  Label `0` is epsilon. -/
structure Arc where
  ilabel : Nat
  olabel : Nat
  weight : Weight
  nextstate : Nat
deriving DecidableEq

/-- Modelled from the spec: the mutable WFST substrate (pynini `Fst`),
whose implementation is outside this repository.  Vertices are the dense
ids `0 .. numStates - 1`; `arcs` keeps `(source, arc)` pairs in insertion
order; `finals` is an association list of final weights (a vertex that is
absent has final weight `inf`, the semiring zero). -/
structure Fst where
  numStates : Nat
  start : Option Nat
  arcs : List (Nat × Arc)
  finals : List (Nat × Weight)
deriving DecidableEq

/-- The empty FST (`pynini.Fst()`). -/
def Fst.empty : Fst := ⟨0, none, [], []⟩

/-- Modelled from the spec: `add_state()` allocates a fresh vertex id
(non-accepting) and returns it. -/
def Fst.addState (f : Fst) : Nat × Fst :=
  (f.numStates, { f with numStates := f.numStates + 1 })

/-- Modelled from the spec: `add_states(n)` reserves `n` fresh contiguous
ids. -/
def Fst.addStates (f : Fst) (n : Nat) : Fst :=
  { f with numStates := f.numStates + n }

/-- Modelled from the spec: `set_start`; last call wins. -/
def Fst.setStart (f : Fst) (v : Nat) : Fst := { f with start := some v }

/-- Modelled from the spec: `add_arc` appends an outgoing arc; multiple
arcs between the same pair of vertices are allowed. -/
def Fst.addArc (f : Fst) (src : Nat) (a : Arc) : Fst :=
  { f with arcs := f.arcs ++ [(src, a)] }

/-- Look up an association list by key. -/
def assocLookup {κ α : Type} [DecidableEq κ] (l : List (κ × α)) (k : κ) : Option α :=
  (l.find? (fun p => decide (p.1 = k))).map (·.2)

/-- Overwrite an existing key in an association list, or append it. -/
def assocSet {κ α : Type} [DecidableEq κ] (l : List (κ × α)) (k : κ) (v : α) :
    List (κ × α) :=
  if (l.find? (fun p => decide (p.1 = k))).isSome then
    l.map (fun p => if p.1 = k then (k, v) else p)
  else l ++ [(k, v)]

/-- Modelled from the spec: `final(v)` returns the stored final weight,
the semiring zero `inf` when none is set. -/
def Fst.final (f : Fst) (v : Nat) : Weight :=
  (assocLookup f.finals v).getD .inf

/-- Modelled from the spec: `set_final(v, w)` stores the semiring sum
(`⊕` = min in the tropical semiring) of `w` with any final weight the
vertex already carries. -/
def Fst.setFinal (f : Fst) (v : Nat) (w : Weight) : Fst :=
  { f with finals := assocSet f.finals v (Weight.plus (f.final v) w) }

/-- The outgoing arcs of a vertex, in insertion order (`fst.arcs(state)`). -/
def Fst.arcsFrom (f : Fst) (s : Nat) : List Arc :=
  (f.arcs.filter (fun p => decide (p.1 = s))).map (·.2)

/-- One rule of a slot: `(upper, lower, continuation classes, weight)`.
A continuation class is `(target, weight)` where a `none` (or empty)
target is the Terminal sentinel. -/
structure Rule where
  upper : String
  lower : String
  conts : List (Option String × ℚ)
  weight : ℚ
deriving DecidableEq

/-- A slot (`Slot` / `StemGuesser`).  A `StemGuesser` carries its eagerly
compiled acceptor in `fsa` (the `isinstance(slot, StemGuesser)` test of
the compiler becomes `fsa.isSome`); a regular `Slot` has `fsa = none`.
`finalStates` is the compiler-scratch field `final_states`. -/
structure MSlot where
  name : String
  rules : List Rule
  start : Bool
  finalStates : List Nat
  fsa : Option Fst
deriving DecidableEq

/-- `slot_map[v]`: Python dict comprehension over the input, so a later
slot with the same name wins. -/
def slotLookup (slots : List MSlot) (v : String) : Option MSlot :=
  slots.reverse.find? (fun s => decide (s.name = v))

/-- The keys of `starting_slots` in insertion order (first occurrence of
each name). -/
def startingNames (slots : List MSlot) : List String :=
  ((slots.filter (·.start)).map (·.name)).eraseDups

/-- The Python truthiness test `if cc` on a continuation target: `None`
and the empty string are the Terminal sentinel. -/
def truthyName : Option String → Option String
  | none => none
  | some s => if s = "" then none else some s

/-- `neighbors(vertex)`: the named (non-Terminal) continuation targets of
a slot's rules, deduplicated (the source collects them into a Python
`set`, whose enumeration order is unspecified; we keep first-occurrence
order).  For the virtual `"start"` vertex: the names of the starting
slots.  The source would raise a `KeyError` on a vertex outside the slot
map, but the DFS only ever calls `neighbors` after a successful `visit`,
which already fails on such vertices, so `[]` here is unobservable. -/
def neighbors (slots : List MSlot) (v : String) : List String :=
  if v = "start" then startingNames slots
  else
    match slotLookup slots v with
    | none => []
    | some slot =>
      (slot.rules.flatMap (fun r => r.conts.filterMap (fun p => truthyName p.1))).eraseDups

/-- Compilation errors.  `outOfFuel` is an artifact of the fuelled DFS
below; the termination theorem shows the fuel chosen by `compileM` never
runs out, matching the source's unbounded recursion. -/
inductive CErr where
  | noStartingSlot : CErr
  | keyError (k : String) : CErr
  | indexError (k : String) : CErr
  | malformedFst : CErr
  | outOfFuel : CErr
deriving DecidableEq

/-- The polymorphic depth-first search `_dfs` of the source: on a first
visit of a vertex run `visit`, fold `_dfs` itself over its neighbors (the
`for nbor in nbors` loop), then run `finish`; on a repeat visit run
`revisit`.  `visit` may fail (the Python callbacks can raise), which
aborts the search.  The explicit `fuel` replaces Python's unbounded
recursion. -/
def dfs {σ : Type} (nbors : String → List String)
    (visit : σ → String → Except CErr σ)
    (revisit finish : σ → String → σ) :
    Nat → σ → List String → String → Except CErr (σ × List String)
  | 0, _, _, _ => .error .outOfFuel
  | fuel + 1, st, visited, v =>
    if v ∈ visited then .ok (revisit st v, visited)
    else
      match visit st v with
      | .error e => .error e
      | .ok st =>
        match (nbors v).foldlM
            (fun (p : σ × List String) nbor =>
              dfs nbors visit revisit finish fuel p.1 p.2 nbor)
            (st, v :: visited) with
        | .error e => .error e
        | .ok (st, visited) => .ok (finish st v, visited)

/-- The fold of `_dfs` over a list of vertices (the neighbor loop of
`_dfs`), named for the lemmas below. -/
def dfsList {σ : Type} (nbors : String → List String)
    (visit : σ → String → Except CErr σ)
    (revisit finish : σ → String → σ)
    (fuel : Nat) (st : σ) (visited : List String) (ws : List String) :
    Except CErr (σ × List String) :=
  ws.foldlM
    (fun (p : σ × List String) nbor =>
      dfs nbors visit revisit finish fuel p.1 p.2 nbor)
    (st, visited)

/-- Modelled from the spec: the per-rule mini-transducer
`pynutil.add_weight(pynini.cross(lower, upper), rule_weight)` (pynini is
outside this repository).  A linear chain that reads `lower` and writes
`upper` (the shorter side padded with epsilon), with the rule weight
attached to its first arc; vertex `0` is its start. -/
def ruleFst (upper lower : String) (w : ℚ) : Fst :=
  let u := upper.toList
  let l := lower.toList
  let L := max u.length l.length
  { numStates := L + 1
    start := some 0
    arcs := (List.range L).map (fun i =>
      (i, ⟨((l.get? i).map Char.toNat).getD 0, ((u.get? i).map Char.toNat).getD 0,
           (if i = 0 then Weight.fin w else Weight.fin 0), i + 1⟩))
    finals := if L = 0 then [(0, Weight.fin w)] else [(L, Weight.fin 0)] }

/-- The vertex translation of the copy loops of pass 1: vertex `0` of the
copied automaton maps to the slot's entry vertex, every other vertex `i`
to `oldNum + i - 1` of the master automaton. -/
def trState (slotStart oldNum s : Nat) : Nat :=
  if s = 0 then slotStart else oldNum + s - 1

/-- Pass 1, regular-rule case (lines 96-103 of `morphotactics.py`): copy
the rule transducer into the master automaton arc by arc under the vertex
translation. -/
def copyRule (f : Fst) (slotStart : Nat) (rule : Fst) : Fst :=
  let oldNum := f.numStates
  let f := f.addStates (rule.numStates - 1)
  (List.range rule.numStates).foldl
    (fun f s =>
      (rule.arcsFrom s).foldl
        (fun f a =>
          f.addArc (trState slotStart oldNum s)
            ⟨a.ilabel, a.olabel, a.weight, trState slotStart oldNum a.nextstate⟩) f)
    f

/-- Pass 1, `StemGuesser` case (lines 74-85 of `morphotactics.py`): copy
the acceptor into the master automaton under the vertex translation,
collecting the translated image of every accepting acceptor vertex. -/
def copyGuesser (f : Fst) (slotStart : Nat) (fsa : Fst) : Fst × List Nat :=
  let oldNum := f.numStates
  let f := f.addStates (fsa.numStates - 1)
  (List.range fsa.numStates).foldl
    (fun acc s =>
      let fins := if fsa.final s ≠ .inf then acc.2 ++ [trState slotStart oldNum s] else acc.2
      let f := (fsa.arcsFrom s).foldl
        (fun f a =>
          f.addArc (trState slotStart oldNum s)
            ⟨a.ilabel, a.olabel, a.weight, trState slotStart oldNum a.nextstate⟩) acc.1
      (f, fins))
    (f, [])

/-- The DFS state of pass 1: the master automaton, the `start_states` map
from slot name (plus `"start"`) to entry vertex, and the `final_states`
scratch of every slot (keyed by name; this models the mutation of the
Python `Slot` objects). -/
structure P1State where
  fst : Fst
  startStates : List (String × Nat)
  finals : List (String × List Nat)
deriving DecidableEq

/-- The initial contents of the `final_states` scratch: whatever the
caller's `Slot` objects already hold (the compiler never clears it).
A later slot with a repeated name shadows an earlier one, as in the
Python slot map. -/
def initFinals (slots : List MSlot) : List (String × List Nat) :=
  slots.reverse.map (fun s => (s.name, s.finalStates))

/-- Append newly produced final vertices to a slot's scratch list. -/
def appendFinals (l : List (String × List Nat)) (k : String) (xs : List Nat) :
    List (String × List Nat) :=
  assocSet l k (((assocLookup l k).getD []) ++ xs)

/-- `first_visit` of pass 1 (lines 59-110 of `morphotactics.py`). -/
def firstVisit (slots : List MSlot) (st : P1State) (v : String) :
    Except CErr P1State :=
  if v = "start" then
    let (s, f) := st.fst.addState
    .ok ⟨f.setStart s, assocSet st.startStates v s, st.finals⟩
  else
    match slotLookup slots v with
    | none => .error (.keyError v)
    | some slot =>
      let (slotStart, f) := st.fst.addState
      match slot.fsa with
      | some fsa =>
        let (f, newFins) := copyGuesser f slotStart fsa
        .ok ⟨f, assocSet st.startStates v slotStart, appendFinals st.finals v newFins⟩
      | none =>
        let (f, newFins) := slot.rules.foldl
          (fun acc r =>
            let f := copyRule acc.1 slotStart (ruleFst r.upper r.lower r.weight)
            (f, acc.2 ++ [f.numStates - 1]))
          (f, ([] : List Nat))
        .ok ⟨f, assocSet st.startStates v slotStart, appendFinals st.finals v newFins⟩

/-- The inner continuation loop of pass 2 (lines 162-181): for each
continuation class of a rule, either mark the rule's final vertex
accepting (Terminal) or add an epsilon arc to the continuation's entry
vertex. -/
def contsFold (startStates : List (String × Nat)) (finalState : Nat)
    (conts : List (Option String × ℚ)) (f : Fst) : Except CErr Fst :=
  conts.foldlM
    (fun f p =>
      match truthyName p.1 with
      | none => .ok (f.setFinal finalState (Weight.fin p.2))
      | some cc =>
        match assocLookup startStates cc with
        | none => .error (.keyError cc)
        | some d => .ok (f.addArc finalState ⟨0, 0, Weight.fin p.2, d⟩))
    f

/-- `second_pass` of pass 2 (lines 145-182 of `morphotactics.py`). -/
def secondPass (slots : List MSlot) (startStates : List (String × Nat))
    (fins : List (String × List Nat)) (f : Fst) (v : String) : Except CErr Fst :=
  if v = "start" then
    match assocLookup startStates "start" with
    | none => .error (.keyError "start")
    | some s =>
      (startingNames slots).foldlM
        (fun f S =>
          match assocLookup startStates S with
          | none => .error (.keyError S)
          | some d => .ok (f.addArc s ⟨0, 0, Weight.fin 0, d⟩))
        f
  else
    match slotLookup slots v with
    | none => .error (.keyError v)
    | some slot =>
      match slot.fsa with
      | some _ =>
        match slot.rules with
        | [] => .error (.indexError v)
        | r :: _ =>
          ((assocLookup fins v).getD []).foldlM
            (fun f fs => contsFold startStates fs r.conts f) f
      | none =>
        (slot.rules.zip ((assocLookup fins v).getD [])).foldlM
          (fun f p => contsFold startStates p.2 p.1.conts f) f

/-- Enough fuel for both DFS passes: the recursion nests at most one level
per distinct slot name plus the virtual root and one failing vertex. -/
def dfsFuel (slots : List MSlot) : Nat := slots.length + 2

/-- `revisit` of both passes: a slot only needs to be processed once, so a
repeat visit does nothing. -/
def revisitSlot {σ : Type} (st : σ) (_ : String) : σ := st

/-- `finish` of both passes: does nothing. -/
def finishSlot {σ : Type} (st : σ) (_ : String) : σ := st

/-- Pass 1: materialize every slot reachable from the virtual `"start"`
vertex.  Returns the final DFS state and the visited set. -/
def pass1 (slots : List MSlot) : Except CErr (P1State × List String) :=
  dfs (neighbors slots) (firstVisit slots) revisitSlot finishSlot
    (dfsFuel slots) ⟨Fst.empty, [], initFinals slots⟩ [] "start"

/-- Both compiler passes (lines 49-184 of `morphotactics.py`): raise when
no slot is a starting slot, materialize the reachable slots, then wire the
continuation arcs.  Returns the wired automaton together with the
`start_states` map and the mutated `final_states` scratch. -/
def compileBuildFull (slots : List MSlot) :
    Except CErr (Fst × List (String × Nat) × List (String × List Nat)) :=
  if startingNames slots = [] then .error .noStartingSlot
  else
    match pass1 slots with
    | .error e => .error e
    | .ok (st1, _) =>
      match dfs (neighbors slots) (secondPass slots st1.startStates st1.finals)
          revisitSlot finishSlot (dfsFuel slots) st1.fst [] "start" with
      | .error e => .error e
      | .ok (f2, _) => .ok (f2, st1.startStates, st1.finals)

/-- Modelled from the spec: structural verification (`fst.verify()`):
the start vertex is set and in range (an empty automaton verifies), all
arc endpoints are in range, all final entries are in range. -/
def Fst.verify (f : Fst) : Bool :=
  (match f.start with
   | some s => decide (s < f.numStates)
   | none => decide (f.numStates = 0)) &&
  f.arcs.all (fun sa => decide (sa.1 < f.numStates) && decide (sa.2.nextstate < f.numStates)) &&
  f.finals.all (fun p => decide (p.1 < f.numStates))

/-- One relaxation round of the tropical epsilon-distance computation. -/
def epsRelax (f : Fst) (d : List Weight) : List Weight :=
  (List.range f.numStates).map (fun p =>
    f.arcs.foldl
      (fun w sa =>
        if sa.2.ilabel = 0 ∧ sa.2.olabel = 0 ∧ sa.2.nextstate = p then
          Weight.plus w (Weight.times (d.getD sa.1 .inf) sa.2.weight)
        else w)
      (d.getD p .inf))

/-- Tropical shortest epsilon-distance from `q` to every vertex, computed
by `numStates` relaxation rounds. -/
def epsDist (f : Fst) (q : Nat) : List Weight :=
  Nat.iterate (epsRelax f) f.numStates
    ((List.range f.numStates).map (fun p => if p = q then Weight.fin 0 else Weight.inf))

/-- Modelled from the spec: `rmepsilon()`, the standard epsilon-closure
construction: every vertex inherits the non-epsilon arcs and the final
weights of its epsilon-closure, weighted by the corresponding epsilon
distance; epsilon arcs themselves disappear. -/
def Fst.rmepsilon (f : Fst) : Fst :=
  let newArcs := (List.range f.numStates).flatMap (fun q =>
    let d := epsDist f q
    (List.range f.numStates).flatMap (fun p =>
      match d.getD p .inf with
      | .inf => []
      | w =>
        (f.arcsFrom p).filterMap (fun a =>
          if a.ilabel = 0 ∧ a.olabel = 0 then none
          else some (q, ⟨a.ilabel, a.olabel, Weight.times w a.weight, a.nextstate⟩))))
  let newFinals := (List.range f.numStates).filterMap (fun q =>
    let d := epsDist f q
    match (List.range f.numStates).foldl
        (fun acc p => Weight.plus acc (Weight.times (d.getD p .inf) (f.final p))) .inf with
    | .inf => none
    | w => some (q, w))
  { numStates := f.numStates, start := f.start, arcs := newArcs, finals := newFinals }

/-- Modelled from the spec: the `I_DETERMINISTIC` property bit — no vertex
has two outgoing arcs with the same input label. -/
def Fst.isIDeterministic (f : Fst) : Bool :=
  (List.range f.numStates).all (fun q =>
    let ls := (f.arcsFrom q).map (·.ilabel)
    decide (ls.eraseDups.length = ls.length))

/-- Modelled from the spec: the `O_DETERMINISTIC` property bit — no vertex
has two outgoing arcs with the same output label. -/
def Fst.isODeterministic (f : Fst) : Bool :=
  (List.range f.numStates).all (fun q =>
    let ls := (f.arcsFrom q).map (·.olabel)
    decide (ls.eraseDups.length = ls.length))

/-- One forward-reachability round over the arcs. -/
def reachRound (f : Fst) (r : List Bool) : List Bool :=
  (List.range f.numStates).map (fun p =>
    r.getD p false ||
      f.arcs.any (fun sa => r.getD sa.1 false && decide (sa.2.nextstate = p)))

/-- One co-reachability round over the arcs. -/
def coreachRound (f : Fst) (r : List Bool) : List Bool :=
  (List.range f.numStates).map (fun p =>
    r.getD p false ||
      f.arcs.any (fun sa => decide (sa.1 = p) && r.getD sa.2.nextstate false))

/-- Modelled from the spec: `optimize()` (encode + determinize + minimize
+ decode) is an OpenFST operation outside this repository.  It is modelled
here by its connection step: vertices that are not on a path from the
start vertex to an accepting vertex are removed and the rest renumbered in
order.  The theorems about `compile` depend only on where `optimize` is
invoked, not on its internals. -/
def Fst.optimize (f : Fst) : Fst :=
  let startReach : List Bool :=
    (List.range f.numStates).map (fun p => decide (f.start = some p))
  let reach := Nat.iterate (reachRound f) f.numStates startReach
  let finReach : List Bool :=
    (List.range f.numStates).map (fun p => decide (f.final p ≠ .inf))
  let coreach := Nat.iterate (coreachRound f) f.numStates finReach
  let keep : Nat → Bool := fun p => reach.getD p false && coreach.getD p false
  let newId : Nat → Nat := fun p => ((List.range p).filter keep).length
  { numStates := ((List.range f.numStates).filter keep).length
    start := match f.start with
      | some s => if keep s then some (newId s) else none
      | none => none
    arcs := f.arcs.filterMap (fun sa =>
      if keep sa.1 && keep sa.2.nextstate then
        some (newId sa.1, { sa.2 with nextstate := newId sa.2.nextstate })
      else none)
    finals := f.finals.filterMap (fun p =>
      if keep p.1 then some (newId p.1, p.2) else none) }

/-- The mutated `Slot` objects as observable after `compile` returns:
each slot's `final_states` holds whatever the scratch accumulated. -/
def updatedSlots (slots : List MSlot) (fins : List (String × List Nat)) :
    List MSlot :=
  slots.map (fun s => { s with finalStates := (assocLookup fins s.name).getD s.finalStates })

/-- The full `compile` (lines 27-198 of `morphotactics.py`): both passes,
structural verification, epsilon removal, and optimization exactly when
the epsilon-free automaton is both input- and output-deterministic.
Returns the automaton together with the mutated slot objects. -/
def compileM (slots : List MSlot) : Except CErr (Fst × List MSlot) :=
  match compileBuildFull slots with
  | .error e => .error e
  | .ok (f, _, fins) =>
    if f.verify = false then .error .malformedFst
    else
      let e := f.rmepsilon
      if e.isIDeterministic && e.isODeterministic then
        .ok (e.optimize, updatedSlots slots fins)
      else .ok (e, updatedSlots slots fins)

/-- The value `compile` actually returns to the caller (the mutation of
the slot objects is a side effect). -/
def compile (slots : List MSlot) : Except CErr Fst :=
  (compileM slots).map (·.1)

/-!  The `StemGuesser` regex scanner (`stem_guesser.py`).  The partial
pynini acceptors held on the scanner's frame stack are modelled as
regular expressions; pynini's `accep`, `concat`, `union` and `closure`
become the corresponding syntactic constructors. -/

/-- A regular expression over string symbols, standing for the partial
acceptors the scanner builds (`accep('')` is `eps`). -/
inductive RE where
  | eps : RE
  | sym (s : String) : RE
  | cat (a b : RE) : RE
  | alt (a b : RE) : RE
  | star (a : RE) : RE
deriving DecidableEq

/-- `pynini.union(*symbols)`: fails on an empty argument list. -/
def unionSyms : List String → Option RE
  | [] => none
  | [s] => some (.sym s)
  | s :: rest => (unionSyms rest).map (fun e => .alt (.sym s) e)

/-- The kind tag of a scanner frame. -/
inductive FrameKind where
  | scope | union | sigma | symbol | processed
deriving DecidableEq

/-- Errors the `StemGuesser` constructor can raise while scanning. -/
inductive SGErr where
  | unmatchedParen
  | unmatchedBracket
  | emptyQuant
  | alphabetRequired
  | emptyUnion
  | popEmpty
  | topEmpty
deriving DecidableEq

/-- The scanner state: the bracket-matching stack (`stack`) and the frame
stack (`fst_stack`), with the most recent entry at the head. -/
structure ScanState where
  brackets : List Char
  frames : List (FrameKind × RE)
deriving DecidableEq

/-- The phone-class alphabet: class character to list of symbols. -/
abbrev Alphabet : Type := List (Char × List String)

/-- Key membership `c in alphabet`. -/
def alphaHas (alpha : Alphabet) (c : Char) : Bool :=
  (alpha.map (·.1)).contains c

/-- `alphabet[c]`. -/
def alphaGet (alpha : Alphabet) (c : Char) : List String :=
  (assocLookup alpha c).getD []

/-- The set of all symbols of all classes (Python builds a `set`; first
occurrences are kept). -/
def alphaSymbols (alpha : Alphabet) : List String :=
  (alpha.flatMap (·.2)).eraseDups

/-- An atom of the regex: a class character expands to the union of the
class's symbols, any other character is a literal. -/
def charAtom (alpha : Alphabet) (c : Char) : Except SGErr RE :=
  if alphaHas alpha c then
    match unionSyms (alphaGet alpha c) with
    | none => .error .emptyUnion
    | some e => .ok e
  else .ok (.sym (String.mk [c]))

/-- One step of the `StemGuesser` scanner (the body of the character loop
of `StemGuesser.__init__`, lines 47-111 of `stem_guesser.py`), at
position `i` of a regex of length `n`.  The branch order matches the
source: brackets, then the open-scope/open-union fold (which treats even
quantifier characters as literals), then sigma, then the quantifiers,
then plain atoms. -/
def sgStep (alpha : Alphabet) (n i : Nat) (c : Char) (st : ScanState) :
    Except SGErr ScanState :=
  if c = '[' then
    .ok ⟨c :: st.brackets, (.union, .eps) :: st.frames⟩
  else if c = '(' then
    .ok ⟨c :: st.brackets, (.scope, .eps) :: st.frames⟩
  else if c = ')' then
    match st.brackets with
    | [] => .error .popEmpty
    | b :: rest =>
      if b ≠ '(' then .error .unmatchedParen
      else
        match st.frames with
        | [] => .error .topEmpty
        | (_, e) :: fr => .ok ⟨rest, (.processed, e) :: fr⟩
  else if c = ']' then
    match st.brackets with
    | [] => .error .popEmpty
    | b :: rest =>
      if b ≠ '[' then .error .unmatchedBracket
      else
        match st.frames with
        | [] => .error .topEmpty
        | (_, e) :: fr => .ok ⟨rest, (.processed, e) :: fr⟩
  else
    match st.frames with
    | (FrameKind.scope, e) :: fr =>
      (charAtom alpha c).map (fun a => ⟨st.brackets, (.scope, .cat e a) :: fr⟩)
    | (FrameKind.union, e) :: fr =>
      (charAtom alpha c).map (fun a =>
        if e = .eps then ⟨st.brackets, (.union, .cat e a) :: fr⟩
        else ⟨st.brackets, (.union, .alt e a) :: fr⟩)
    | _ =>
      if c = '.' then
        if alpha = ([] : List (Char × List String)) then .error .alphabetRequired
        else
          match unionSyms (alphaSymbols alpha) with
          | none => .error .emptyUnion
          | some e => .ok ⟨st.brackets, (.sigma, e) :: st.frames⟩
      else if c = '?' then
        if i = 0 then .error .emptyQuant
        else
          match st.frames with
          | [] => .error .topEmpty
          | (k, e) :: fr => .ok ⟨st.brackets, (k, .alt e .eps) :: fr⟩
      else if c = '*' then
        if i = 0 then .error .emptyQuant
        else
          match st.frames with
          | [] => .error .topEmpty
          | (k, e) :: fr =>
            if (fr = [] ∧ i = n - 1) ∨ k = .sigma then
              .ok ⟨st.brackets, (k, .alt (.star e) .eps) :: fr⟩
            else .ok ⟨st.brackets, (k, .star e) :: fr⟩
      else if c = '+' then
        if i = 0 then .error .emptyQuant
        else
          match st.frames with
          | [] => .error .topEmpty
          | (k, e) :: fr => .ok ⟨st.brackets, (k, .cat e (.star e)) :: fr⟩
      else
        (charAtom alpha c).map (fun a => ⟨st.brackets, (.symbol, a) :: st.frames⟩)

/-- Fold the scanner over the indexed characters of the regex. -/
def sgScanFrom (alpha : Alphabet) (n : Nat) :
    List (Nat × Char) → ScanState → Except SGErr ScanState
  | [], st => .ok st
  | (i, c) :: rest, st =>
    match sgStep alpha n i c st with
    | .error e => .error e
    | .ok st => sgScanFrom alpha n rest st

/-- Scan a whole regex from the empty state. -/
def sgScan (alpha : Alphabet) (regex : String) : Except SGErr ScanState :=
  sgScanFrom alpha regex.length regex.toList.enum ⟨[], []⟩

/-- The acceptor of a `StemGuesser` as a regular expression: scan, check
the bracket stack is empty, then concatenate the frames bottom-up (the
final `fst = fst + f` loop; pynini `+` is concatenation).  An empty frame
stack leaves the Python `fst` as `None` and the constructor crashes on
`None.optimize()`, modelled as `topEmpty`. -/
def stemGuesserRE (alpha : Alphabet) (regex : String) : Except SGErr RE :=
  match sgScan alpha regex with
  | .error e => .error e
  | .ok st =>
    if st.brackets ≠ [] then .error .unmatchedBracket
    else
      match (st.frames.reverse.map (·.2)) with
      | [] => .error .topEmpty
      | e :: es => .ok (es.foldl .cat e)

/-!  Notions the theorems below quantify over, and the concrete slot sets
used to instantiate them. -/

/-- Reachability along a neighbor function: `u` is reachable from `v`. -/
def Reach (nbors : String → List String) (v u : String) : Prop :=
  Relation.ReflTransGen (fun a b => b ∈ nbors a) v u

/-- The DFS termination measure: how many vertices of `univ` are not yet
visited. -/
def unvisitedCount (univ visited : List String) : Nat :=
  univ.dedup.countP (fun x => decide (x ∉ visited))

/-- The vertex universe of the compiler's DFS: the virtual root and the
slot names. -/
def slotUniv (slots : List MSlot) : List String :=
  "start" :: slots.map (·.name)

/-- Replace the rules of any slot named `"start"` (used to express that
such a slot's rules can never influence compilation). -/
def replaceStartRules (slots : List MSlot) (r : List Rule) : List MSlot :=
  slots.map (fun s => if s.name = "start" then { s with rules := r } else s)

/-- A slot whose rule continues to its own slot (`X` continues to `X`)
next to a Terminal continuation. -/
def cycSlotX : MSlot := ⟨"X", [⟨"a", "b", [(some "X", 0), (none, 0)], 0⟩], true, [], none⟩

/-- A slot set whose continuation graph has a cycle. -/
def cycSlots : List MSlot := [cycSlotX]

/-- The automaton both passes produce on `cycSlots`. -/
def cycBuildFst : Fst :=
  ⟨3, some 0,
   [(1, ⟨98, 97, .fin 0, 2⟩), (0, ⟨0, 0, .fin 0, 1⟩), (2, ⟨0, 0, .fin 0, 1⟩)],
   [(2, .fin 0)]⟩

/-- A slot set with no starting slot. -/
def noStartSlots : List MSlot := [⟨"A", [⟨"a", "b", [(none, 0)], 0⟩], false, [], none⟩]

/-- The master automaton pass 1 produces on `cycSlots`. -/
def cycP1Fst : Fst := ⟨3, some 0, [(1, ⟨98, 97, .fin 0, 2⟩)], []⟩

/-- The DFS state pass 1 produces on `cycSlots`. -/
def cycP1State : P1State := ⟨cycP1Fst, [("start", 0), ("X", 1)], [("X", [2])]⟩

/-- A starting slot with an empty rules list. -/
def emptyRulesSlots : List MSlot := [⟨"a", [], true, [], none⟩]

/-- A slot set with a dangling continuation name (`"Missing"` is not a
slot). -/
def danglingSlots : List MSlot :=
  [⟨"A", [⟨"a", "b", [(some "Missing", 0)], 0⟩], true, [], none⟩]

/-- A single slot whose only rule carries two Terminal continuations with
weights `w1` and `w2`. -/
def twoTerminalSlots (w1 w2 : ℚ) : List MSlot :=
  [⟨"T", [⟨"a", "b", [(none, w1), (none, w2)], 0⟩], true, [], none⟩]

/-- A slot set containing a user slot named `"start"` (with rules),
alongside an ordinary starting slot. -/
def startNameSlots : List MSlot :=
  [⟨"A", [⟨"a", "b", [(none, 0)], 0⟩], true, [], none⟩,
   ⟨"start", [⟨"x", "y", [(none, 5)], 1⟩], false, [], none⟩]

/-- The number of accepting states of a guesser's acceptor (each of which
pass 1 records in `final_states`). -/
def guesserAccCount (g : Fst) : Nat :=
  ((List.range g.numStates).filter (fun s => decide (g.final s ≠ .inf))).length

/-- What pass 1 appends to a materialized slot's `final_states`: one entry
per rule for a regular slot, one entry per accepting acceptor state for a
`StemGuesser`. -/
def finalsSpec (slots : List MSlot) (v : String) (l : List Nat) : Prop :=
  v ≠ "start" → ∀ slot, slotLookup slots v = some slot →
    (slot.fsa = none → l.length = slot.rules.length) ∧
    (∀ g, slot.fsa = some g → l.length = guesserAccCount g)

/-!  Generic lemmas about the fuelled depth-first search `dfs`. -/

theorem dfs_zero {σ : Type} (nbors : String → List String)
    (visit : σ → String → Except CErr σ) (revisit finish : σ → String → σ)
    (st : σ) (visited : List String) (v : String) :
    dfs nbors visit revisit finish 0 st visited v = .error .outOfFuel := rfl

theorem dfs_succ {σ : Type} (nbors : String → List String)
    (visit : σ → String → Except CErr σ) (revisit finish : σ → String → σ)
    (fuel : Nat) (st : σ) (visited : List String) (v : String) :
    dfs nbors visit revisit finish (fuel + 1) st visited v =
      if v ∈ visited then .ok (revisit st v, visited)
      else
        match visit st v with
        | .error e => .error e
        | .ok st1 =>
          match dfsList nbors visit revisit finish fuel st1 (v :: visited) (nbors v) with
          | .error e => .error e
          | .ok (st2, vis2) => .ok (finish st2 v, vis2) := by
  rw [dfs]
  rfl

theorem dfsList_nil {σ : Type} (nbors : String → List String)
    (visit : σ → String → Except CErr σ) (revisit finish : σ → String → σ)
    (fuel : Nat) (st : σ) (visited : List String) :
    dfsList nbors visit revisit finish fuel st visited [] = .ok (st, visited) := rfl

theorem dfsList_cons {σ : Type} (nbors : String → List String)
    (visit : σ → String → Except CErr σ) (revisit finish : σ → String → σ)
    (fuel : Nat) (st : σ) (visited : List String) (w : String) (ws : List String) :
    dfsList nbors visit revisit finish fuel st visited (w :: ws) =
      match dfs nbors visit revisit finish fuel st visited w with
      | .error e => .error e
      | .ok (st1, vis1) => dfsList nbors visit revisit finish fuel st1 vis1 ws := by
  unfold dfsList
  rw [List.foldlM_cons]
  cases hd : dfs nbors visit revisit finish fuel st visited w with
  | error e => rfl
  | ok p => rfl

theorem countP_lt_of_mem {α : Type} {p q : α → Bool}
    (himp : ∀ x, p x = true → q x = true) :
    ∀ {l : List α} {a : α}, a ∈ l → q a = true → p a = false →
      l.countP p < l.countP q := by
  intro l
  induction l with
  | nil => intro a ha _ _; exact absurd ha (List.not_mem_nil a)
  | cons b t ih =>
    intro a ha hq hp
    rcases List.mem_cons.mp ha with rfl | hat
    · rw [List.countP_cons, List.countP_cons, hq, hp]
      simpa using Nat.lt_succ_of_le (List.countP_mono_left (fun x _ => himp x))
    · rw [List.countP_cons, List.countP_cons]
      have h1 := ih hat hq hp
      have h2 : (if p b then 1 else 0) ≤ (if q b then 1 else 0) := by
        by_cases hb : p b = true
        · simp [hb, himp b hb]
        · simp [hb]
      omega

theorem unvisitedCount_le {univ visited visited' : List String}
    (h : visited ⊆ visited') :
    unvisitedCount univ visited' ≤ unvisitedCount univ visited :=
  List.countP_mono_left (fun x _ hx => by
    simp only [decide_eq_true_eq] at hx ⊢
    exact fun hxv => hx (h hxv))

theorem unvisitedCount_lt {univ visited : List String} {v : String}
    (hu : v ∈ univ) (hv : v ∉ visited) :
    unvisitedCount univ (v :: visited) < unvisitedCount univ visited := by
  refine countP_lt_of_mem (fun x hx => ?_) (List.mem_dedup.mpr hu) ?_ ?_
  · simp only [decide_eq_true_eq] at hx ⊢
    exact fun hxv => hx (List.mem_cons_of_mem v hxv)
  · simpa using hv
  · simp

theorem foldlM_error {α β : Type} {step : β → α → Except CErr β} {P : CErr → Prop}
    (hstep : ∀ acc x e, step acc x = .error e → P e) :
    ∀ (l : List α) (acc : β) (e : CErr), l.foldlM step acc = .error e → P e := by
  intro l
  induction l with
  | nil =>
    intro acc e h
    rw [List.foldlM_nil] at h
    have h' : Except.ok (ε := CErr) acc = Except.error e := h
    cases h'
  | cons x t ih =>
    intro acc e h
    rw [List.foldlM_cons] at h
    cases hs : step acc x with
    | error e' =>
      rw [hs] at h
      have h' : Except.error (α := β) e' = Except.error e := h
      cases h'
      exact hstep acc x e hs
    | ok acc' =>
      rw [hs] at h
      have h' : t.foldlM step acc' = Except.error e := h
      exact ih acc' e h' 

theorem dfsList_main {σ : Type} {nbors : String → List String}
    {visit : σ → String → Except CErr σ} {univ : List String}
    (hv : ∀ st v st', visit st v = .ok st' → v ∈ univ) (fuel : Nat)
    (hdfs : ∀ (st : σ) (visited : List String) (v : String) st' visited',
      dfs nbors visit revisitSlot finishSlot fuel st visited v = .ok (st', visited') →
      visited ⊆ visited' ∧ v ∈ visited' ∧ (visited.Nodup → visited'.Nodup) ∧
      (∀ u, u ∈ visited' → u ∈ visited ∨ Reach nbors v u) ∧
      (∀ u, u ∈ visited' → u ∉ visited → (∀ w ∈ nbors u, w ∈ visited') ∧ u ∈ univ)) :
    ∀ (st : σ) (visited ws : List String) st' visited',
      dfsList nbors visit revisitSlot finishSlot fuel st visited ws = .ok (st', visited') →
      visited ⊆ visited' ∧ (∀ w ∈ ws, w ∈ visited') ∧ (visited.Nodup → visited'.Nodup) ∧
      (∀ u, u ∈ visited' → u ∈ visited ∨ ∃ w ∈ ws, Reach nbors w u) ∧
      (∀ u, u ∈ visited' → u ∉ visited → (∀ w ∈ nbors u, w ∈ visited') ∧ u ∈ univ) := by
  intro st visited ws
  induction ws generalizing st visited with
  | nil =>
    intro st' visited' h
    rw [dfsList_nil] at h
    cases h
    refine ⟨fun u hu => hu, by simp, fun h => h, fun u hu => Or.inl hu, ?_⟩
    intro u hu hnu
    exact absurd hu hnu
  | cons w ws ih =>
    intro st' visited' h
    rw [dfsList_cons] at h
    cases hd : dfs nbors visit revisitSlot finishSlot fuel st visited w with
    | error e => simp [hd] at h
    | ok p =>
      obtain ⟨st1, vis1⟩ := p
      simp only [hd] at h
      obtain ⟨m1, mem1, nd1, snd1, cl1⟩ := hdfs st visited w st1 vis1 hd
      obtain ⟨m2, mem2, nd2, snd2, cl2⟩ := ih st1 vis1 st' visited' h
      refine ⟨m1.trans m2, ?_, fun hn => nd2 (nd1 hn), ?_, ?_⟩
      · intro w' hw'
        rcases List.mem_cons.mp hw' with rfl | hw'
        · exact m2 mem1
        · exact mem2 w' hw'
      · intro u hu
        rcases snd2 u hu with hu1 | ⟨w', hw', hr⟩
        · rcases snd1 u hu1 with hu0 | hr
          · exact Or.inl hu0
          · exact Or.inr ⟨w, List.mem_cons_self w ws, hr⟩
        · exact Or.inr ⟨w', List.mem_cons_of_mem w hw', hr⟩
      · intro u hu hnu
        by_cases hu1 : u ∈ vis1
        · obtain ⟨hcl, huniv⟩ := cl1 u hu1 hnu
          exact ⟨fun x hx => m2 (hcl x hx), huniv⟩
        · exact cl2 u hu hu1

theorem dfs_main {σ : Type} {nbors : String → List String}
    {visit : σ → String → Except CErr σ} {univ : List String}
    (hv : ∀ st v st', visit st v = .ok st' → v ∈ univ) :
    ∀ (fuel : Nat) (st : σ) (visited : List String) (v : String) st' visited',
      dfs nbors visit revisitSlot finishSlot fuel st visited v = .ok (st', visited') →
      visited ⊆ visited' ∧ v ∈ visited' ∧ (visited.Nodup → visited'.Nodup) ∧
      (∀ u, u ∈ visited' → u ∈ visited ∨ Reach nbors v u) ∧
      (∀ u, u ∈ visited' → u ∉ visited → (∀ w ∈ nbors u, w ∈ visited') ∧ u ∈ univ) := by
  intro fuel
  induction fuel with
  | zero => intro st visited v st' visited' h; exact absurd h (by rw [dfs_zero]; simp)
  | succ fuel ih =>
    intro st visited v st' visited' h
    rw [dfs_succ] at h
    by_cases hm : v ∈ visited
    · rw [if_pos hm] at h
      cases h
      refine ⟨fun u hu => hu, hm, fun h => h, fun u hu => Or.inl hu, ?_⟩
      intro u hu hnu
      exact absurd hu hnu
    · rw [if_neg hm] at h
      cases hvv : visit st v with
      | error e => simp [hvv] at h
      | ok st1 =>
        simp only [hvv] at h
        cases hdl : dfsList nbors visit revisitSlot finishSlot fuel st1 (v :: visited)
            (nbors v) with
        | error e => simp [hdl] at h
        | ok p =>
          obtain ⟨st2, vis2⟩ := p
          simp only [hdl] at h
          obtain ⟨m, memAll, nd, snd, cl⟩ := dfsList_main hv fuel ih st1 (v :: visited)
            (nbors v) st2 vis2 hdl
          cases h
          have hsub : visited ⊆ visited' := fun u hu => m (List.mem_cons_of_mem v hu)
          refine ⟨hsub, m (List.mem_cons_self v visited), ?_, ?_, ?_⟩
          · intro hn
            exact nd (List.nodup_cons.mpr ⟨hm, hn⟩)
          · intro u hu
            rcases snd u hu with hu1 | ⟨w, hw, hr⟩
            · rcases List.mem_cons.mp hu1 with rfl | hu0
              · exact Or.inr Relation.ReflTransGen.refl
              · exact Or.inl hu0
            · exact Or.inr (Relation.ReflTransGen.head hw hr)
          · intro u hu hnu
            by_cases huv : u = v
            · subst huv
              exact ⟨fun w hw => memAll w hw, hv st u st1 hvv⟩
            · refine cl u hu ?_
              intro hc
              rcases List.mem_cons.mp hc with h' | h'
              · exact huv h'
              · exact hnu h'

theorem dfsList_term {σ : Type} {nbors : String → List String}
    {visit : σ → String → Except CErr σ} {univ : List String}
    (hv : ∀ st v st', visit st v = .ok st' → v ∈ univ) (fuel : Nat)
    (hterm : ∀ (st : σ) (visited : List String) (v : String),
      unvisitedCount univ visited < fuel →
      dfs nbors visit revisitSlot finishSlot fuel st visited v ≠ .error .outOfFuel) :
    ∀ (st : σ) (visited ws : List String),
      unvisitedCount univ visited < fuel →
      dfsList nbors visit revisitSlot finishSlot fuel st visited ws ≠ .error .outOfFuel := by
  intro st visited ws
  induction ws generalizing st visited with
  | nil =>
    intro _ h
    rw [dfsList_nil] at h
    cases h
  | cons w ws ih =>
    intro hcount h
    rw [dfsList_cons] at h
    cases hd : dfs nbors visit revisitSlot finishSlot fuel st visited w with
    | error e =>
      rw [hd] at h
      have h' : Except.error (α := σ × List String) e = Except.error CErr.outOfFuel := h
      cases h'
      exact hterm st visited w hcount hd
    | ok p =>
      obtain ⟨st1, vis1⟩ := p
      simp only [hd] at h
      obtain ⟨m1, _, _, _, _⟩ := dfs_main hv fuel st visited w st1 vis1 hd
      exact ih st1 vis1 (Nat.lt_of_le_of_lt (unvisitedCount_le m1) hcount) h

theorem dfs_term {σ : Type} {nbors : String → List String}
    {visit : σ → String → Except CErr σ} {univ : List String}
    (hv : ∀ st v st', visit st v = .ok st' → v ∈ univ)
    (hne : ∀ (st : σ) (v : String) (e : CErr), visit st v = .error e → e ≠ .outOfFuel) :
    ∀ (fuel : Nat) (st : σ) (visited : List String) (v : String),
      unvisitedCount univ visited < fuel →
      dfs nbors visit revisitSlot finishSlot fuel st visited v ≠ .error .outOfFuel := by
  intro fuel
  induction fuel with
  | zero => intro st visited v hcount; omega
  | succ fuel ih =>
    intro st visited v hcount h
    rw [dfs_succ] at h
    by_cases hm : v ∈ visited
    · rw [if_pos hm] at h
      cases h
    · rw [if_neg hm] at h
      cases hvv : visit st v with
      | error e =>
        rw [hvv] at h
        have h' : Except.error (α := σ × List String) e = Except.error CErr.outOfFuel := h
        cases h'
        exact hne st v _ hvv rfl
      | ok st1 =>
        simp only [hvv] at h
        have hvu : v ∈ univ := hv st v st1 hvv
        have hlt : unvisitedCount univ (v :: visited) < fuel := by
          have h1 : unvisitedCount univ (v :: visited) < unvisitedCount univ visited :=
            unvisitedCount_lt hvu hm
          omega
        cases hdl : dfsList nbors visit revisitSlot finishSlot fuel st1 (v :: visited)
            (nbors v) with
        | error e =>
          rw [hdl] at h
          have h' : Except.error (α := σ × List String) e = Except.error CErr.outOfFuel := h
          cases h'
          exact dfsList_term hv fuel ih st1 (v :: visited) (nbors v) hlt hdl
        | ok p =>
          obtain ⟨st2, vis2⟩ := p
          simp only [hdl] at h
          cases h

theorem dfsList_pres {σ : Type} {nbors : String → List String}
    {visit : σ → String → Except CErr σ} {R : σ → σ → Prop}
    (hrefl : ∀ s, R s s) (htrans : ∀ a b c, R a b → R b c → R a c)
    (hvisit : ∀ st v st', visit st v = .ok st' → R st st') (fuel : Nat)
    (hdfs : ∀ (st : σ) (visited : List String) (v : String) st' visited',
      dfs nbors visit revisitSlot finishSlot fuel st visited v = .ok (st', visited') →
      R st st') :
    ∀ (st : σ) (visited ws : List String) st' visited',
      dfsList nbors visit revisitSlot finishSlot fuel st visited ws = .ok (st', visited') →
      R st st' := by
  intro st visited ws
  induction ws generalizing st visited with
  | nil =>
    intro st' visited' h
    rw [dfsList_nil] at h
    cases h
    exact hrefl st
  | cons w ws ih =>
    intro st' visited' h
    rw [dfsList_cons] at h
    cases hd : dfs nbors visit revisitSlot finishSlot fuel st visited w with
    | error e => simp [hd] at h
    | ok p =>
      obtain ⟨st1, vis1⟩ := p
      simp only [hd] at h
      exact htrans st st1 st' (hdfs st visited w st1 vis1 hd) (ih st1 vis1 st' visited' h)

theorem dfs_pres {σ : Type} {nbors : String → List String}
    {visit : σ → String → Except CErr σ} {R : σ → σ → Prop}
    (hrefl : ∀ s, R s s) (htrans : ∀ a b c, R a b → R b c → R a c)
    (hvisit : ∀ st v st', visit st v = .ok st' → R st st') :
    ∀ (fuel : Nat) (st : σ) (visited : List String) (v : String) st' visited',
      dfs nbors visit revisitSlot finishSlot fuel st visited v = .ok (st', visited') →
      R st st' := by
  intro fuel
  induction fuel with
  | zero => intro st visited v st' visited' h; exact absurd h (by rw [dfs_zero]; simp)
  | succ fuel ih =>
    intro st visited v st' visited' h
    rw [dfs_succ] at h
    by_cases hm : v ∈ visited
    · rw [if_pos hm] at h
      cases h
      exact hrefl st
    · rw [if_neg hm] at h
      cases hvv : visit st v with
      | error e => simp [hvv] at h
      | ok st1 =>
        simp only [hvv] at h
        cases hdl : dfsList nbors visit revisitSlot finishSlot fuel st1 (v :: visited)
            (nbors v) with
        | error e => simp [hdl] at h
        | ok p =>
          obtain ⟨st2, vis2⟩ := p
          simp only [hdl] at h
          have hR := dfsList_pres hrefl htrans hvisit fuel ih st1 (v :: visited) (nbors v)
            st2 vis2 hdl
          cases h
          exact htrans st st1 st2 (hvisit st v st1 hvv) hR

theorem dfsList_keys {σ : Type} {nbors : String → List String}
    {visit : σ → String → Except CErr σ} {K : σ → String → Prop}
    (hK : ∀ st v st', visit st v = .ok st' → ∀ u, K st' u ↔ (u = v ∨ K st u)) (fuel : Nat)
    (hdfs : ∀ (st : σ) (visited : List String) (v : String) st' visited',
      dfs nbors visit revisitSlot finishSlot fuel st visited v = .ok (st', visited') →
      (∀ u, K st u ↔ u ∈ visited) → (∀ u, K st' u ↔ u ∈ visited')) :
    ∀ (st : σ) (visited ws : List String) st' visited',
      dfsList nbors visit revisitSlot finishSlot fuel st visited ws = .ok (st', visited') →
      (∀ u, K st u ↔ u ∈ visited) → (∀ u, K st' u ↔ u ∈ visited') := by
  intro st visited ws
  induction ws generalizing st visited with
  | nil =>
    intro st' visited' h hk
    rw [dfsList_nil] at h
    cases h
    exact hk
  | cons w ws ih =>
    intro st' visited' h hk
    rw [dfsList_cons] at h
    cases hd : dfs nbors visit revisitSlot finishSlot fuel st visited w with
    | error e => simp [hd] at h
    | ok p =>
      obtain ⟨st1, vis1⟩ := p
      simp only [hd] at h
      exact ih st1 vis1 st' visited' h (hdfs st visited w st1 vis1 hd hk)

theorem dfs_keys {σ : Type} {nbors : String → List String}
    {visit : σ → String → Except CErr σ} {K : σ → String → Prop}
    (hK : ∀ st v st', visit st v = .ok st' → ∀ u, K st' u ↔ (u = v ∨ K st u)) :
    ∀ (fuel : Nat) (st : σ) (visited : List String) (v : String) st' visited',
      dfs nbors visit revisitSlot finishSlot fuel st visited v = .ok (st', visited') →
      (∀ u, K st u ↔ u ∈ visited) → (∀ u, K st' u ↔ u ∈ visited') := by
  intro fuel
  induction fuel with
  | zero => intro st visited v st' visited' h; exact absurd h (by rw [dfs_zero]; simp)
  | succ fuel ih =>
    intro st visited v st' visited' h hk
    rw [dfs_succ] at h
    by_cases hm : v ∈ visited
    · rw [if_pos hm] at h
      cases h
      exact hk
    · rw [if_neg hm] at h
      cases hvv : visit st v with
      | error e => simp [hvv] at h
      | ok st1 =>
        simp only [hvv] at h
        cases hdl : dfsList nbors visit revisitSlot finishSlot fuel st1 (v :: visited)
            (nbors v) with
        | error e => simp [hdl] at h
        | ok p =>
          obtain ⟨st2, vis2⟩ := p
          simp only [hdl] at h
          cases h
          refine dfsList_keys hK fuel ih st1 (v :: visited) (nbors v) st2 visited' hdl ?_
          intro u
          rw [hK st v st1 hvv u, hk u, List.mem_cons]

theorem dfsList_track {σ : Type} {nbors : String → List String}
    {visit : σ → String → Except CErr σ} {univ : List String}
    {F : σ → String → List Nat} {Q : String → List Nat → Prop}
    (hv : ∀ st v st', visit st v = .ok st' → v ∈ univ)
    (hF1 : ∀ st v st', visit st v = .ok st' → ∀ u, u ≠ v → F st' u = F st u)
    (hF2 : ∀ st v st', visit st v = .ok st' → ∃ l, F st' v = F st v ++ l ∧ Q v l)
    (fuel : Nat)
    (hdfs : ∀ (st : σ) (visited : List String) (v : String) st' visited',
      dfs nbors visit revisitSlot finishSlot fuel st visited v = .ok (st', visited') →
      (∀ u, (u ∉ visited' ∨ u ∈ visited) → F st' u = F st u) ∧
      (∀ u, u ∈ visited' → u ∉ visited → ∃ l, F st' u = F st u ++ l ∧ Q u l)) :
    ∀ (st : σ) (visited ws : List String) st' visited',
      dfsList nbors visit revisitSlot finishSlot fuel st visited ws = .ok (st', visited') →
      (∀ u, (u ∉ visited' ∨ u ∈ visited) → F st' u = F st u) ∧
      (∀ u, u ∈ visited' → u ∉ visited → ∃ l, F st' u = F st u ++ l ∧ Q u l) := by
  intro st visited ws
  induction ws generalizing st visited with
  | nil =>
    intro st' visited' h
    rw [dfsList_nil] at h
    cases h
    refine ⟨fun u _ => rfl, fun u hu hnu => absurd hu hnu⟩
  | cons w ws ih =>
    intro st' visited' h
    rw [dfsList_cons] at h
    cases hd : dfs nbors visit revisitSlot finishSlot fuel st visited w with
    | error e => simp [hd] at h
    | ok p =>
      obtain ⟨st1, vis1⟩ := p
      simp only [hd] at h
      obtain ⟨m1, mem1, _, _, _⟩ := dfs_main hv fuel st visited w st1 vis1 hd
      obtain ⟨m2, _, _, _, _⟩ := dfsList_main hv fuel (dfs_main hv fuel) st1 vis1 ws st' visited' h
      obtain ⟨t1a, t1b⟩ := hdfs st visited w st1 vis1 hd
      obtain ⟨t2a, t2b⟩ := ih st1 vis1 st' visited' h
      constructor
      · intro u hu
        rcases hu with hu | hu
        · have hnv1 : u ∉ vis1 := fun hc => hu (m2 hc)
          rw [t2a u (Or.inl hu), t1a u (Or.inl hnv1)]
        · rw [t2a u (Or.inr (m1 hu)), t1a u (Or.inr hu)]
      · intro u hu hnu
        by_cases hu1 : u ∈ vis1
        · obtain ⟨l, hl, hq⟩ := t1b u hu1 hnu
          exact ⟨l, by rw [t2a u (Or.inr hu1), hl], hq⟩
        · obtain ⟨l, hl, hq⟩ := t2b u hu hu1
          exact ⟨l, by rw [hl, t1a u (Or.inl hu1)], hq⟩

theorem dfs_track {σ : Type} {nbors : String → List String}
    {visit : σ → String → Except CErr σ} {univ : List String}
    {F : σ → String → List Nat} {Q : String → List Nat → Prop}
    (hv : ∀ st v st', visit st v = .ok st' → v ∈ univ)
    (hF1 : ∀ st v st', visit st v = .ok st' → ∀ u, u ≠ v → F st' u = F st u)
    (hF2 : ∀ st v st', visit st v = .ok st' → ∃ l, F st' v = F st v ++ l ∧ Q v l) :
    ∀ (fuel : Nat) (st : σ) (visited : List String) (v : String) st' visited',
      dfs nbors visit revisitSlot finishSlot fuel st visited v = .ok (st', visited') →
      (∀ u, (u ∉ visited' ∨ u ∈ visited) → F st' u = F st u) ∧
      (∀ u, u ∈ visited' → u ∉ visited → ∃ l, F st' u = F st u ++ l ∧ Q u l) := by
  intro fuel
  induction fuel with
  | zero => intro st visited v st' visited' h; exact absurd h (by rw [dfs_zero]; simp)
  | succ fuel ih =>
    intro st visited v st' visited' h
    rw [dfs_succ] at h
    by_cases hm : v ∈ visited
    · rw [if_pos hm] at h
      cases h
      refine ⟨fun u _ => rfl, fun u hu hnu => absurd hu hnu⟩
    · rw [if_neg hm] at h
      cases hvv : visit st v with
      | error e => simp [hvv] at h
      | ok st1 =>
        simp only [hvv] at h
        cases hdl : dfsList nbors visit revisitSlot finishSlot fuel st1 (v :: visited)
            (nbors v) with
        | error e => simp [hdl] at h
        | ok p =>
          obtain ⟨st2, vis2⟩ := p
          simp only [hdl] at h
          obtain ⟨m, _, _, _, _⟩ := dfsList_main hv fuel (dfs_main hv fuel) st1 (v :: visited)
            (nbors v) st2 vis2 hdl
          obtain ⟨t2a, t2b⟩ := dfsList_track hv hF1 hF2 fuel ih st1 (v :: visited) (nbors v)
            st2 vis2 hdl
          cases h
          simp only [finishSlot]
          constructor
          · intro u hu
            have huv : u ≠ v := by
              rcases hu with hu | hu
              · exact fun hc => hu (m (hc ▸ List.mem_cons_self v visited))
              · exact fun hc => hm (hc ▸ hu)
            have h1 : F st1 u = F st u := hF1 st v st1 hvv u huv
            rcases hu with hu | hu
            · rw [t2a u (Or.inl hu), h1]
            · rw [t2a u (Or.inr (List.mem_cons_of_mem v hu)), h1]
          · intro u hu hnu
            by_cases huv : u = v
            · subst huv
              obtain ⟨l, hl, hq⟩ := hF2 st u st1 hvv
              refine ⟨l, ?_, hq⟩
              rw [t2a u (Or.inr (List.mem_cons_self u visited)), hl]
            · have hu1 : u ∉ v :: visited := by
                intro hc
                rcases List.mem_cons.mp hc with h' | h'
                exacts [huv h', hnu h']
              obtain ⟨l, hl, hq⟩ := t2b u hu hu1
              exact ⟨l, by rw [hl, hF1 st v st1 hvv u huv], hq⟩

/-!  Association-list and fold characterization lemmas. -/

theorem assocLookup_assocSet_self {κ α : Type} [DecidableEq κ] (l : List (κ × α))
    (k : κ) (v : α) : assocLookup (assocSet l k v) k = some v := by
  unfold assocSet
  by_cases hf : (l.find? (fun p => decide (p.1 = k))).isSome
  · rw [if_pos hf]
    unfold assocLookup
    induction l with
    | nil => simp at hf
    | cons p t ih =>
      by_cases hp : p.1 = k
      · simp [hp]
      · rw [List.find?_cons_of_neg _ (by simpa using hp)] at hf
        simp only [List.map_cons, if_neg hp]
        rw [List.find?_cons_of_neg _ (by simpa using hp)]
        exact ih hf
  · rw [if_neg hf]
    unfold assocLookup
    induction l with
    | nil => simp
    | cons p t ih =>
      by_cases hp : p.1 = k
      · exact absurd (by rw [List.find?_cons_of_pos _ (by simpa using hp)]; rfl) hf
      · rw [List.find?_cons_of_neg _ (by simpa using hp)] at hf
        simp only [List.cons_append]
        rw [List.find?_cons_of_neg _ (by simpa using hp)]
        exact ih hf

theorem assocLookup_assocSet_ne {κ α : Type} [DecidableEq κ] (l : List (κ × α))
    (k u : κ) (v : α) (h : u ≠ k) :
    assocLookup (assocSet l k v) u = assocLookup l u := by
  unfold assocSet
  by_cases hf : (l.find? (fun p => decide (p.1 = k))).isSome
  · rw [if_pos hf]
    unfold assocLookup
    clear hf
    induction l with
    | nil => simp
    | cons p t ih =>
      by_cases hp : p.1 = k
      · simp only [List.map_cons, if_pos hp]
        rw [List.find?_cons_of_neg _ (by simpa using fun hc => h hc.symm),
          List.find?_cons_of_neg _ (by simpa using fun hc => h (hp ▸ hc).symm)]
        exact ih
      · simp only [List.map_cons, if_neg hp]
        by_cases hu : p.1 = u
        · rw [List.find?_cons_of_pos _ (by simpa using hu),
            List.find?_cons_of_pos _ (by simpa using hu)]
        · rw [List.find?_cons_of_neg _ (by simpa using hu),
            List.find?_cons_of_neg _ (by simpa using hu)]
          exact ih
  · rw [if_neg hf]
    unfold assocLookup
    clear hf
    induction l with
    | nil =>
      simp only [List.nil_append]
      rw [List.find?_cons_of_neg _ (by simpa using fun hc => h hc.symm)]
    | cons p t ih =>
      by_cases hu : p.1 = u
      · simp only [List.cons_append]
        rw [List.find?_cons_of_pos _ (by simpa using hu),
          List.find?_cons_of_pos _ (by simpa using hu)]
      · simp only [List.cons_append]
        rw [List.find?_cons_of_neg _ (by simpa using hu),
          List.find?_cons_of_neg _ (by simpa using hu)]
        exact ih

theorem assocLookup_assocSet_isSome {κ α : Type} [DecidableEq κ] (l : List (κ × α))
    (k u : κ) (v : α) :
    (assocLookup (assocSet l k v) u).isSome ↔ (u = k ∨ (assocLookup l u).isSome) := by
  by_cases h : u = k
  · subst h
    rw [assocLookup_assocSet_self]
    simp
  · rw [assocLookup_assocSet_ne l k u v h]
    simp [h]

theorem foldl_addArc (src : Nat) (mk : Arc → Arc) :
    ∀ (l : List Arc) (g : Fst),
      l.foldl (fun f a => f.addArc src (mk a)) g =
        { g with arcs := g.arcs ++ l.map (fun a => (src, mk a)) } := by
  intro l
  induction l with
  | nil => intro g; simp
  | cons a t ih =>
    intro g
    rw [List.foldl_cons, ih]
    simp [Fst.addArc]

theorem copyGuesser_fold (slotStart oldNum : Nat) (fsa : Fst) :
    ∀ (states : List Nat) (g : Fst) (fins : List Nat),
      states.foldl
        (fun acc s =>
          let fins := if fsa.final s ≠ .inf then acc.2 ++ [trState slotStart oldNum s] else acc.2
          let f := (fsa.arcsFrom s).foldl
            (fun f a =>
              f.addArc (trState slotStart oldNum s)
                ⟨a.ilabel, a.olabel, a.weight, trState slotStart oldNum a.nextstate⟩) acc.1
          (f, fins)) (g, fins) =
      ({ g with arcs := g.arcs ++ states.flatMap (fun s =>
           (fsa.arcsFrom s).map (fun a =>
             (trState slotStart oldNum s,
              ⟨a.ilabel, a.olabel, a.weight, trState slotStart oldNum a.nextstate⟩))) },
       fins ++ (states.filter (fun s => decide (fsa.final s ≠ .inf))).map
         (trState slotStart oldNum)) := by
  intro states
  induction states with
  | nil => intro g fins; simp
  | cons s t ih =>
    intro g fins
    rw [List.foldl_cons]
    simp only []
    rw [foldl_addArc (trState slotStart oldNum s)
      (fun a => ⟨a.ilabel, a.olabel, a.weight, trState slotStart oldNum a.nextstate⟩), ih]
    by_cases hfin : fsa.final s ≠ .inf
    · simp [hfin, List.filter_cons, List.flatMap_cons]
    · simp [hfin, List.filter_cons, List.flatMap_cons]

theorem copyGuesser_spec (f : Fst) (slotStart : Nat) (fsa : Fst) :
    copyGuesser f slotStart fsa =
      ({ numStates := f.numStates + (fsa.numStates - 1)
         start := f.start
         arcs := f.arcs ++ (List.range fsa.numStates).flatMap (fun s =>
           (fsa.arcsFrom s).map (fun a =>
             (trState slotStart f.numStates s,
              ⟨a.ilabel, a.olabel, a.weight, trState slotStart f.numStates a.nextstate⟩)))
         finals := f.finals },
       ((List.range fsa.numStates).filter (fun s => decide (fsa.final s ≠ .inf))).map
         (trState slotStart f.numStates)) := by
  unfold copyGuesser
  rw [copyGuesser_fold slotStart f.numStates fsa (List.range fsa.numStates)
    (f.addStates (fsa.numStates - 1)) []]
  simp [Fst.addStates]

theorem rulesFold_snd (slotStart : Nat) :
    ∀ (rules : List Rule) (g : Fst) (fins : List Nat),
      ((rules.foldl
        (fun acc r =>
          let f := copyRule acc.1 slotStart (ruleFst r.upper r.lower r.weight)
          (f, acc.2 ++ [f.numStates - 1])) (g, fins)).2).length =
        fins.length + rules.length := by
  intro rules
  induction rules with
  | nil => intro g fins; simp
  | cons r t ih =>
    intro g fins
    rw [List.foldl_cons]
    simp only []
    rw [ih]
    simp
    omega

/-!  Instantiation of the generic DFS lemmas for the two compiler passes. -/

theorem firstVisit_univ (slots : List MSlot) :
    ∀ (st : P1State) (v : String) st', firstVisit slots st v = .ok st' →
      v ∈ slotUniv slots := by
  intro st v st' h
  unfold firstVisit at h
  by_cases hv : v = "start"
  · subst hv
    exact List.mem_cons_self _ _
  · rw [if_neg hv] at h
    cases hl : slotLookup slots v with
    | none => rw [hl] at h; cases h
    | some slot =>
      have h1 := List.find?_some hl
      have h2 := List.mem_of_find?_eq_some hl
      refine List.mem_cons_of_mem _ ?_
      rw [List.mem_map]
      exact ⟨slot, List.mem_reverse.mp h2, by simpa using h1⟩

theorem firstVisit_err (slots : List MSlot) :
    ∀ (st : P1State) (v : String) (e : CErr), firstVisit slots st v = .error e →
      e = .keyError v := by
  intro st v e h
  unfold firstVisit at h
  by_cases hv : v = "start"
  · rw [if_pos hv] at h
    cases h
  · rw [if_neg hv] at h
    cases hl : slotLookup slots v with
    | none =>
      rw [hl] at h
      cases h
      rfl
    | some slot =>
      rw [hl] at h
      cases hfsa : slot.fsa with
      | some fsa => simp [hfsa] at h
      | none => simp [hfsa] at h

theorem contsFold_err (ss : List (String × Nat)) (fs : Nat)
    (conts : List (Option String × ℚ)) (f : Fst) (e : CErr)
    (h : contsFold ss fs conts f = .error e) : ∃ k, e = .keyError k := by
  unfold contsFold at h
  refine foldlM_error (P := fun e => ∃ k, e = .keyError k) ?_ conts f e h
  intro acc x e' hx
  cases hx2 : truthyName x.1 with
  | none => simp only [hx2] at hx; cases hx
  | some cc =>
    simp only [hx2] at hx
    cases hl : assocLookup ss cc with
    | none => simp only [hl] at hx; cases hx; exact ⟨cc, rfl⟩
    | some d => simp only [hl] at hx; cases hx

theorem secondPass_univ (slots : List MSlot) (ss : List (String × Nat))
    (fins : List (String × List Nat)) :
    ∀ (f : Fst) (v : String) f', secondPass slots ss fins f v = .ok f' →
      v ∈ slotUniv slots := by
  intro f v f' h
  unfold secondPass at h
  by_cases hv : v = "start"
  · subst hv
    exact List.mem_cons_self _ _
  · rw [if_neg hv] at h
    cases hl : slotLookup slots v with
    | none => rw [hl] at h; cases h
    | some slot =>
      have h1 := List.find?_some hl
      have h2 := List.mem_of_find?_eq_some hl
      refine List.mem_cons_of_mem _ ?_
      rw [List.mem_map]
      exact ⟨slot, List.mem_reverse.mp h2, by simpa using h1⟩

theorem secondPass_err (slots : List MSlot) (ss : List (String × Nat))
    (fins : List (String × List Nat)) :
    ∀ (f : Fst) (v : String) (e : CErr), secondPass slots ss fins f v = .error e →
      e ≠ .outOfFuel := by
  intro f v e h
  unfold secondPass at h
  by_cases hv : v = "start"
  · rw [if_pos hv] at h
    cases hl : assocLookup ss "start" with
    | none =>
      rw [hl] at h
      cases h
      simp
    | some s =>
      rw [hl] at h
      have := foldlM_error (P := fun e => e ≠ CErr.outOfFuel) ?_ (startingNames slots) f e h
      · exact this
      · intro acc x e' hx
        cases hx2 : assocLookup ss x with
        | none => rw [hx2] at hx; cases hx; simp
        | some d => rw [hx2] at hx; cases hx
  · rw [if_neg hv] at h
    cases hl : slotLookup slots v with
    | none =>
      rw [hl] at h
      cases h
      simp
    | some slot =>
      simp only [hl] at h
      cases hfsa : slot.fsa with
      | some fsa =>
        simp only [hfsa] at h
        cases hr : slot.rules with
        | nil => simp only [hr] at h; cases h; simp
        | cons r rest =>
          simp only [hr] at h
          have := foldlM_error (P := fun e => e ≠ CErr.outOfFuel) ?_
            ((assocLookup fins v).getD []) f e h
          · exact this
          · intro acc x e' hx
            obtain ⟨k, rfl⟩ := contsFold_err ss x r.conts acc e' hx
            simp
      | none =>
        simp only [hfsa] at h
        have := foldlM_error (P := fun e => e ≠ CErr.outOfFuel) ?_
          (slot.rules.zip ((assocLookup fins v).getD [])) f e h
        · exact this
        · intro acc x e' hx
          obtain ⟨k, rfl⟩ := contsFold_err ss x.2 x.1.conts acc e' hx
          simp

theorem firstVisit_keys (slots : List MSlot) :
    ∀ (st : P1State) (v : String) st', firstVisit slots st v = .ok st' →
      ∀ u, (assocLookup st'.startStates u).isSome ↔
        (u = v ∨ (assocLookup st.startStates u).isSome) := by
  intro st v st' h u
  unfold firstVisit at h
  by_cases hv : v = "start"
  · rw [if_pos hv] at h
    cases h
    exact assocLookup_assocSet_isSome st.startStates v u _
  · rw [if_neg hv] at h
    cases hl : slotLookup slots v with
    | none => simp only [hl] at h; cases h
    | some slot =>
      simp only [hl] at h
      cases hfsa : slot.fsa with
      | some fsa =>
        simp only [hfsa] at h
        cases h
        exact assocLookup_assocSet_isSome st.startStates v u _
      | none =>
        simp only [hfsa] at h
        cases h
        exact assocLookup_assocSet_isSome st.startStates v u _

theorem firstVisit_track1 (slots : List MSlot) :
    ∀ (st : P1State) (v : String) st', firstVisit slots st v = .ok st' →
      ∀ u, u ≠ v → (assocLookup st'.finals u).getD [] = (assocLookup st.finals u).getD [] := by
  intro st v st' h u huv
  unfold firstVisit at h
  by_cases hv : v = "start"
  · rw [if_pos hv] at h
    cases h
    rfl
  · rw [if_neg hv] at h
    cases hl : slotLookup slots v with
    | none => simp only [hl] at h; cases h
    | some slot =>
      simp only [hl] at h
      cases hfsa : slot.fsa with
      | some fsa =>
        simp only [hfsa] at h
        cases h
        unfold appendFinals
        rw [assocLookup_assocSet_ne st.finals v u _ huv]
      | none =>
        simp only [hfsa] at h
        cases h
        unfold appendFinals
        rw [assocLookup_assocSet_ne st.finals v u _ huv]

theorem firstVisit_track2 (slots : List MSlot) :
    ∀ (st : P1State) (v : String) st', firstVisit slots st v = .ok st' →
      ∃ l, (assocLookup st'.finals v).getD [] = (assocLookup st.finals v).getD [] ++ l ∧
        finalsSpec slots v l := by
  intro st v st' h
  unfold firstVisit at h
  by_cases hv : v = "start"
  · rw [if_pos hv] at h
    cases h
    subst hv
    refine ⟨[], by simp, ?_⟩
    intro hne
    exact absurd rfl hne
  · rw [if_neg hv] at h
    cases hl : slotLookup slots v with
    | none => simp only [hl] at h; cases h
    | some slot =>
      simp only [hl] at h
      cases hfsa : slot.fsa with
      | some fsa =>
        simp only [hfsa] at h
        cases h
        refine ⟨(copyGuesser (st.fst.addState).2 (st.fst.addState).1 fsa).2, ?_, ?_⟩
        · unfold appendFinals
          rw [assocLookup_assocSet_self]
          rfl
        · intro _ slot' hl'
          rw [hl] at hl'
          cases hl'
          constructor
          · intro hc
            rw [hfsa] at hc
            cases hc
          · intro g hg
            rw [hfsa] at hg
            cases hg
            rw [copyGuesser_spec]
            simp [guesserAccCount]
      | none =>
        simp only [hfsa] at h
        cases h
        refine ⟨(slot.rules.foldl
          (fun acc r =>
            let f := copyRule acc.1 (st.fst.addState).1 (ruleFst r.upper r.lower r.weight)
            (f, acc.2 ++ [f.numStates - 1])) ((st.fst.addState).2, ([] : List Nat))).2, ?_, ?_⟩
        · unfold appendFinals
          rw [assocLookup_assocSet_self]
          rfl
        · intro _ slot' hl'
          rw [hl] at hl'
          cases hl'
          constructor
          · intro _
            rw [rulesFold_snd]
            simp
          · intro g hg
            rw [hfsa] at hg
            cases hg

theorem pass1_facts (slots : List MSlot) (st1 : P1State) (vis1 : List String)
    (h : pass1 slots = .ok (st1, vis1)) :
    vis1.Nodup ∧ (∀ v, v ∈ vis1 ↔ Reach (neighbors slots) "start" v) ∧
    (∀ v, (assocLookup st1.startStates v).isSome ↔ v ∈ vis1) ∧
    vis1 ⊆ slotUniv slots := by
  unfold pass1 at h
  obtain ⟨m, mem, nd, snd, cl⟩ := dfs_main (firstVisit_univ slots) (dfsFuel slots)
    ⟨Fst.empty, [], initFinals slots⟩ [] "start" st1 vis1 h
  have hkeys := dfs_keys (firstVisit_keys slots) (dfsFuel slots)
    ⟨Fst.empty, [], initFinals slots⟩ [] "start" st1 vis1 h (by simp [assocLookup])
  have hiff : ∀ v, v ∈ vis1 ↔ Reach (neighbors slots) "start" v := by
    intro v
    constructor
    · intro hv
      rcases snd v hv with h0 | hr
      · exact absurd h0 (List.not_mem_nil v)
      · exact hr
    · intro hr
      induction hr with
      | refl => exact mem
      | tail hab hstep ih =>
        exact (cl _ ih (List.not_mem_nil _)).1 _ hstep
  refine ⟨nd List.nodup_nil, hiff, hkeys, ?_⟩
  intro u hu
  exact (cl u hu (List.not_mem_nil u)).2

theorem pass1_not_outOfFuel (slots : List MSlot) :
    pass1 slots ≠ .error .outOfFuel := by
  unfold pass1
  refine dfs_term (firstVisit_univ slots)
    (fun st v e he => by rw [firstVisit_err slots st v e he]; simp)
    (dfsFuel slots) ⟨Fst.empty, [], initFinals slots⟩ [] "start" ?_
  unfold unvisitedCount dfsFuel
  have h1 : ((slotUniv slots).dedup.countP (fun x => decide (x ∉ ([] : List String)))) ≤
      (slotUniv slots).dedup.length := List.countP_le_length _
  have h2 : (slotUniv slots).dedup.length ≤ (slotUniv slots).length :=
    (List.dedup_sublist (slotUniv slots)).length_le
  have h3 : (slotUniv slots).length = slots.length + 1 := by
    unfold slotUniv
    simp
  omega

theorem compileM_not_outOfFuel (slots : List MSlot) :
    compileM slots ≠ .error .outOfFuel := by
  unfold compileM compileBuildFull
  by_cases hs : startingNames slots = []
  · rw [if_pos hs]
    simp
  · rw [if_neg hs]
    cases hp : pass1 slots with
    | error e =>
      have : e ≠ .outOfFuel := fun hc => pass1_not_outOfFuel slots (hc ▸ hp)
      simpa using this
    | ok p =>
      obtain ⟨st1, vis1⟩ := p
      simp only []
      cases hd : dfs (neighbors slots) (secondPass slots st1.startStates st1.finals)
          revisitSlot finishSlot (dfsFuel slots) st1.fst [] "start" with
      | error e =>
        have hne : e ≠ .outOfFuel := by
          intro hc
          subst hc
          refine dfs_term (secondPass_univ slots st1.startStates st1.finals)
            (secondPass_err slots st1.startStates st1.finals)
            (dfsFuel slots) st1.fst [] "start" ?_ hd
          unfold unvisitedCount dfsFuel
          have h1 : ((slotUniv slots).dedup.countP (fun x => decide (x ∉ ([] : List String)))) ≤
              (slotUniv slots).dedup.length := List.countP_le_length _
          have h2 : (slotUniv slots).dedup.length ≤ (slotUniv slots).length :=
            (List.dedup_sublist (slotUniv slots)).length_le
          have h3 : (slotUniv slots).length = slots.length + 1 := by
            unfold slotUniv
            simp
          omega
        simpa using hne
      | ok p2 =>
        obtain ⟨f2, vis2⟩ := p2
        simp only []
        by_cases hver : f2.verify = false
        · rw [if_pos hver]
          simp
        · rw [if_neg hver]
          by_cases hdet : (f2.rmepsilon.isIDeterministic && f2.rmepsilon.isODeterministic) = true
          · simp only [hdet, if_true]
            simp
          · simp only [Bool.not_eq_true] at hdet
            simp only [hdet, Bool.false_eq_true, if_false]
            simp

theorem foldlM_pres {α β : Type} {step : β → α → Except CErr β} {R : β → β → Prop}
    (hrefl : ∀ b, R b b) (htrans : ∀ a b c, R a b → R b c → R a c)
    (hstep : ∀ acc x acc', step acc x = .ok acc' → R acc acc') :
    ∀ (l : List α) (acc out : β), l.foldlM step acc = .ok out → R acc out := by
  intro l
  induction l with
  | nil =>
    intro acc out h
    rw [List.foldlM_nil] at h
    have h' : Except.ok (ε := CErr) acc = Except.ok out := h
    cases h'
    exact hrefl acc
  | cons x t ih =>
    intro acc out h
    rw [List.foldlM_cons] at h
    cases hs : step acc x with
    | error e =>
      rw [hs] at h
      have h' : Except.error (α := β) e = Except.ok out := h
      cases h'
    | ok acc' =>
      rw [hs] at h
      have h' : t.foldlM step acc' = Except.ok out := h
      exact htrans acc acc' out (hstep acc x acc' hs) (ih acc' out h')

/-- The arcs list only ever grows during pass 2. -/
theorem arcsExtend_refl : ∀ f : Fst, ∃ t, f.arcs = f.arcs ++ t :=
  fun f => ⟨[], by simp⟩

theorem arcsExtend_trans : ∀ a b c : Fst,
    (∃ t, b.arcs = a.arcs ++ t) → (∃ t, c.arcs = b.arcs ++ t) →
    ∃ t, c.arcs = a.arcs ++ t := by
  intro a b c ⟨t1, h1⟩ ⟨t2, h2⟩
  exact ⟨t1 ++ t2, by rw [h2, h1, List.append_assoc]⟩

theorem contsFold_arcs_extend (ss : List (String × Nat)) (fs : Nat)
    (conts : List (Option String × ℚ)) :
    ∀ (f f' : Fst), contsFold ss fs conts f = .ok f' → ∃ t, f'.arcs = f.arcs ++ t := by
  intro f f' h
  unfold contsFold at h
  refine foldlM_pres (R := fun a b => ∃ t, b.arcs = a.arcs ++ t)
    arcsExtend_refl arcsExtend_trans ?_ conts f f' h
  intro acc x acc' hx
  cases hx2 : truthyName x.1 with
  | none =>
    simp only [hx2] at hx
    cases hx
    exact ⟨[], by simp [Fst.setFinal]⟩
  | some cc =>
    simp only [hx2] at hx
    cases hl : assocLookup ss cc with
    | none => simp only [hl] at hx; cases hx
    | some d =>
      simp only [hl] at hx
      cases hx
      exact ⟨_, rfl⟩

theorem secondPass_arcs_extend (slots : List MSlot) (ss : List (String × Nat))
    (fins : List (String × List Nat)) :
    ∀ (f : Fst) (v : String) f', secondPass slots ss fins f v = .ok f' →
      ∃ t, f'.arcs = f.arcs ++ t := by
  intro f v f' h
  unfold secondPass at h
  by_cases hv : v = "start"
  · rw [if_pos hv] at h
    cases hl : assocLookup ss "start" with
    | none => rw [hl] at h; cases h
    | some s =>
      simp only [hl] at h
      refine foldlM_pres (R := fun a b => ∃ t, b.arcs = a.arcs ++ t)
        arcsExtend_refl arcsExtend_trans ?_ (startingNames slots) f f' h
      intro acc x acc' hx
      cases hlx : assocLookup ss x with
      | none => simp only [hlx] at hx; cases hx
      | some d =>
        simp only [hlx] at hx
        cases hx
        exact ⟨_, rfl⟩
  · rw [if_neg hv] at h
    cases hl : slotLookup slots v with
    | none => simp only [hl] at h; cases h
    | some slot =>
      simp only [hl] at h
      cases hfsa : slot.fsa with
      | some fsa =>
        simp only [hfsa] at h
        cases hr : slot.rules with
        | nil => simp only [hr] at h; cases h
        | cons r rest =>
          simp only [hr] at h
          refine foldlM_pres (R := fun a b => ∃ t, b.arcs = a.arcs ++ t)
            arcsExtend_refl arcsExtend_trans ?_ ((assocLookup fins v).getD []) f f' h
          intro acc x acc' hx
          exact contsFold_arcs_extend ss x r.conts acc acc' hx
      | none =>
        simp only [hfsa] at h
        refine foldlM_pres (R := fun a b => ∃ t, b.arcs = a.arcs ++ t)
          arcsExtend_refl arcsExtend_trans ?_
          (slot.rules.zip ((assocLookup fins v).getD [])) f f' h
        intro acc x acc' hx
        exact contsFold_arcs_extend ss x.2 x.1.conts acc acc' hx

theorem foldlM_addArc_mem (ss : List (String × Nat)) (root : Nat) :
    ∀ (names : List String) (f : Fst), (∀ S ∈ names, (assocLookup ss S).isSome) →
      ∃ f1, (names.foldlM (fun f S =>
          match assocLookup ss S with
          | none => Except.error (CErr.keyError S)
          | some d => Except.ok (f.addArc root ⟨0, 0, Weight.fin 0, d⟩)) f) = .ok f1 ∧
        (∃ t, f1.arcs = f.arcs ++ t) ∧
        (∀ S d, S ∈ names → assocLookup ss S = some d →
          (root, (⟨0, 0, Weight.fin 0, d⟩ : Arc)) ∈ f1.arcs) := by
  intro names
  induction names with
  | nil =>
    intro f _
    refine ⟨f, by rw [List.foldlM_nil]; rfl, arcsExtend_refl f, ?_⟩
    intro S d hS
    exact absurd hS (List.not_mem_nil S)
  | cons S0 t ih =>
    intro f hall
    have hS0 := hall S0 (List.mem_cons_self S0 t)
    cases hl : assocLookup ss S0 with
    | none => rw [hl] at hS0; cases hS0
    | some d0 =>
      obtain ⟨f1, hfold, ⟨tl, htl⟩, hmem⟩ := ih (f.addArc root ⟨0, 0, Weight.fin 0, d0⟩)
        (fun S hS => hall S (List.mem_cons_of_mem S0 hS))
      refine ⟨f1, ?_, ?_, ?_⟩
      · rw [List.foldlM_cons]
        simp only [hl]
        exact hfold
      · refine ⟨(root, (⟨0, 0, Weight.fin 0, d0⟩ : Arc)) :: tl, ?_⟩
        rw [htl]
        simp [Fst.addArc]
      · intro S d hS hd
        rcases List.mem_cons.mp hS with rfl | hS
        · rw [hl] at hd
          cases hd
          rw [htl]
          refine List.mem_append_left _ ?_
          simp [Fst.addArc]
        · exact hmem S d hS hd

theorem assocLookup_cons_self {κ α : Type} [DecidableEq κ] (k : κ) (v : α)
    (l : List (κ × α)) : assocLookup ((k, v) :: l) k = some v := by
  unfold assocLookup
  rw [List.find?_cons_of_pos _ (by simp)]
  rfl

theorem assocLookup_cons_ne {κ α : Type} [DecidableEq κ] (k u : κ) (v : α)
    (l : List (κ × α)) (h : k ≠ u) :
    assocLookup ((k, v) :: l) u = assocLookup l u := by
  unfold assocLookup
  rw [List.find?_cons_of_neg _ (by simpa using h)]

theorem lookup_name_map (s : MSlot) :
    ∀ (l : List MSlot), (l.map (·.name)).Nodup → s ∈ l →
      assocLookup (l.map (fun s => (s.name, s.finalStates))) s.name = some s.finalStates := by
  intro l
  induction l with
  | nil => intro _ hs; cases hs
  | cons p t ih =>
    intro hnod hs
    rcases List.mem_cons.mp hs with rfl | hs
    · rw [List.map_cons]
      exact assocLookup_cons_self _ _ _
    · have hne : p.name ≠ s.name := by
        intro hc
        have hm : s.name ∈ t.map (·.name) := List.mem_map.mpr ⟨s, hs, rfl⟩
        rw [List.map_cons, List.nodup_cons] at hnod
        exact hnod.1 (hc ▸ hm)
      rw [List.map_cons, assocLookup_cons_ne _ _ _ _ hne]
      rw [List.map_cons, List.nodup_cons] at hnod
      exact ih hnod.2 hs

theorem initFinals_lookup (slots : List MSlot) (s : MSlot)
    (hnod : (slots.map (·.name)).Nodup) (hs : s ∈ slots) :
    assocLookup (initFinals slots) s.name = some s.finalStates := by
  unfold initFinals
  refine lookup_name_map s slots.reverse ?_ (List.mem_reverse.mpr hs)
  rw [List.map_reverse]
  exact List.nodup_reverse.mpr hnod

theorem firstVisit_finals_keys (slots : List MSlot) :
    ∀ (st : P1State) (v : String) st', firstVisit slots st v = .ok st' →
      ∀ u, (assocLookup st.finals u).isSome → (assocLookup st'.finals u).isSome := by
  intro st v st' h u hu
  unfold firstVisit at h
  by_cases hv : v = "start"
  · rw [if_pos hv] at h
    cases h
    exact hu
  · rw [if_neg hv] at h
    cases hl : slotLookup slots v with
    | none => simp only [hl] at h; cases h
    | some slot =>
      simp only [hl] at h
      cases hfsa : slot.fsa with
      | some fsa =>
        simp only [hfsa] at h
        cases h
        unfold appendFinals
        exact (assocLookup_assocSet_isSome st.finals v u _).mpr (Or.inr hu)
      | none =>
        simp only [hfsa] at h
        cases h
        unfold appendFinals
        exact (assocLookup_assocSet_isSome st.finals v u _).mpr (Or.inr hu)

theorem pass1_finals (slots : List MSlot) (st1 : P1State) (vis1 : List String)
    (h : pass1 slots = .ok (st1, vis1)) :
    (∀ v, v ∈ vis1 → ∃ l,
      (assocLookup st1.finals v).getD [] = (assocLookup (initFinals slots) v).getD [] ++ l ∧
      finalsSpec slots v l) ∧
    (∀ u, (assocLookup (initFinals slots) u).isSome → (assocLookup st1.finals u).isSome) := by
  unfold pass1 at h
  constructor
  · intro v hv
    have htr := dfs_track (firstVisit_univ slots) (firstVisit_track1 slots)
      (firstVisit_track2 slots) (dfsFuel slots)
      ⟨Fst.empty, [], initFinals slots⟩ [] "start" st1 vis1 h
    exact htr.2 v hv (List.not_mem_nil v)
  · intro u hu
    have hrefl : ∀ a : P1State, ∀ u : String,
        (assocLookup a.finals u).isSome = true → (assocLookup a.finals u).isSome = true :=
      fun _ _ h => h
    have htrans : ∀ a b c : P1State,
        (∀ u : String, (assocLookup a.finals u).isSome = true →
          (assocLookup b.finals u).isSome = true) →
        (∀ u : String, (assocLookup b.finals u).isSome = true →
          (assocLookup c.finals u).isSome = true) →
        (∀ u : String, (assocLookup a.finals u).isSome = true →
          (assocLookup c.finals u).isSome = true) :=
      fun _ _ _ h1 h2 u hx => h2 u (h1 u hx)
    exact dfs_pres (R := fun a b => ∀ u : String,
        (assocLookup a.finals u).isSome = true → (assocLookup b.finals u).isSome = true)
      hrefl htrans
      (fun st v st' hok u hx => firstVisit_finals_keys slots st v st' hok u hx)
      (dfsFuel slots) ⟨Fst.empty, [], initFinals slots⟩ [] "start" st1 vis1 h u hu

theorem neighbors_start (slots : List MSlot) :
    neighbors slots "start" = startingNames slots := by
  unfold neighbors
  rw [if_pos rfl]

theorem pass2_start_arcs (slots : List MSlot) (st1 : P1State) (root : Nat)
    (f : Fst) (vis2 : List String)
    (hroot : assocLookup st1.startStates "start" = some root)
    (hall : ∀ S ∈ startingNames slots, (assocLookup st1.startStates S).isSome)
    (hd : dfs (neighbors slots) (secondPass slots st1.startStates st1.finals)
      revisitSlot finishSlot (dfsFuel slots) st1.fst [] "start" = .ok (f, vis2)) :
    ∀ S d, S ∈ startingNames slots → assocLookup st1.startStates S = some d →
      (root, (⟨0, 0, Weight.fin 0, d⟩ : Arc)) ∈ f.arcs := by
  intro S d hS hld
  have hfuel : dfsFuel slots = (slots.length + 1) + 1 := rfl
  rw [hfuel] at hd
  rw [dfs_succ] at hd
  rw [if_neg (List.not_mem_nil "start")] at hd
  obtain ⟨f1, hfold, _, hmem⟩ := foldlM_addArc_mem st1.startStates root
    (startingNames slots) st1.fst hall
  have hvisit : secondPass slots st1.startStates st1.finals st1.fst "start" = .ok f1 := by
    unfold secondPass
    rw [if_pos rfl]
    simp only [hroot]
    exact hfold
  simp only [hvisit] at hd
  cases hdl : dfsList (neighbors slots) (secondPass slots st1.startStates st1.finals)
      revisitSlot finishSlot (slots.length + 1) f1 ["start"] (neighbors slots "start") with
  | error e => simp only [hdl] at hd; cases hd
  | ok p =>
    obtain ⟨f2, visX⟩ := p
    simp only [hdl] at hd
    have hR : ∃ t, f2.arcs = f1.arcs ++ t :=
      dfsList_pres arcsExtend_refl arcsExtend_trans
        (secondPass_arcs_extend slots st1.startStates st1.finals) (slots.length + 1)
        (dfs_pres arcsExtend_refl arcsExtend_trans
          (secondPass_arcs_extend slots st1.startStates st1.finals) (slots.length + 1))
        f1 ["start"] (neighbors slots "start") f2 visX hdl
    cases hd
    obtain ⟨t, ht⟩ := hR
    simp only [finishSlot]
    rw [ht]
    exact List.mem_append_left t (hmem S d hS hld)

/-!  Changing the rules of a slot named `"start"` cannot influence
compilation: every consumer of the slot set handles the virtual root
before consulting the slot map. -/

theorem replace_slotLookup (slots : List MSlot) (r : List Rule) (v : String)
    (hv : v ≠ "start") :
    slotLookup (replaceStartRules slots r) v = slotLookup slots v := by
  unfold slotLookup replaceStartRules
  rw [← List.map_reverse]
  induction slots.reverse with
  | nil => rfl
  | cons s t ih =>
    rw [List.map_cons]
    by_cases hn : s.name = v
    · rw [if_neg (fun hc => hv (hn.symm.trans hc))]
      rw [List.find?_cons_of_pos _ (by simpa using hn),
        List.find?_cons_of_pos _ (by simpa using hn)]
    · by_cases hst : s.name = "start"
      · rw [if_pos hst]
        rw [List.find?_cons_of_neg _ (by simpa using hn),
          List.find?_cons_of_neg _ (by simpa using hn)]
        exact ih
      · rw [if_neg hst]
        rw [List.find?_cons_of_neg _ (by simpa using hn),
          List.find?_cons_of_neg _ (by simpa using hn)]
        exact ih

theorem replace_startingNames (slots : List MSlot) (r : List Rule) :
    startingNames (replaceStartRules slots r) = startingNames slots := by
  unfold startingNames replaceStartRules
  have h : ((slots.map (fun s => if s.name = "start" then { s with rules := r } else s)).filter
      (·.start)).map (·.name) = (slots.filter (·.start)).map (·.name) := by
    induction slots with
    | nil => rfl
    | cons s t ih =>
      rw [List.map_cons, List.filter_cons, List.filter_cons]
      have hstart : (if s.name = "start" then { s with rules := r } else s).start = s.start := by
        split <;> rfl
      have hname : (if s.name = "start" then { s with rules := r } else s).name = s.name := by
        split <;> rfl
      rw [hstart]
      by_cases hs : s.start = true
      · rw [if_pos hs, if_pos hs, List.map_cons, List.map_cons, hname, ih]
      · rw [if_neg hs, if_neg hs]
        exact ih
  rw [h]

theorem replace_initFinals (slots : List MSlot) (r : List Rule) :
    initFinals (replaceStartRules slots r) = initFinals slots := by
  unfold initFinals replaceStartRules
  rw [← List.map_reverse, List.map_map]
  congr 1
  funext s
  simp only [Function.comp]
  split <;> rfl

theorem replace_dfsFuel (slots : List MSlot) (r : List Rule) :
    dfsFuel (replaceStartRules slots r) = dfsFuel slots := by
  unfold dfsFuel replaceStartRules
  rw [List.length_map]

theorem replace_neighbors (slots : List MSlot) (r : List Rule) :
    neighbors (replaceStartRules slots r) = neighbors slots := by
  funext v
  unfold neighbors
  by_cases hv : v = "start"
  · rw [if_pos hv, if_pos hv, replace_startingNames]
  · rw [if_neg hv, if_neg hv, replace_slotLookup slots r v hv]

theorem replace_firstVisit (slots : List MSlot) (r : List Rule) :
    firstVisit (replaceStartRules slots r) = firstVisit slots := by
  funext st v
  unfold firstVisit
  by_cases hv : v = "start"
  · rw [if_pos hv, if_pos hv]
  · rw [if_neg hv, if_neg hv, replace_slotLookup slots r v hv]

theorem replace_secondPass (slots : List MSlot) (r : List Rule) :
    secondPass (replaceStartRules slots r) = secondPass slots := by
  funext ss fins f v
  unfold secondPass
  by_cases hv : v = "start"
  · rw [if_pos hv, if_pos hv, replace_startingNames]
  · rw [if_neg hv, if_neg hv, replace_slotLookup slots r v hv]

theorem replace_pass1 (slots : List MSlot) (r : List Rule) :
    pass1 (replaceStartRules slots r) = pass1 slots := by
  unfold pass1
  rw [replace_neighbors, replace_firstVisit, replace_initFinals, replace_dfsFuel]

theorem replace_compileBuildFull (slots : List MSlot) (r : List Rule) :
    compileBuildFull (replaceStartRules slots r) = compileBuildFull slots := by
  unfold compileBuildFull
  rw [replace_startingNames, replace_pass1, replace_neighbors, replace_secondPass,
    replace_dfsFuel]

theorem find_name_self (s : MSlot) :
    ∀ (l : List MSlot), (l.map (·.name)).Nodup → s ∈ l →
      l.find? (fun t => decide (t.name = s.name)) = some s := by
  intro l
  induction l with
  | nil => intro _ hs; cases hs
  | cons p t ih =>
    intro hnod hs
    rcases List.mem_cons.mp hs with rfl | hs
    · rw [List.find?_cons_of_pos _ (by simp)]
    · have hne : p.name ≠ s.name := by
        intro hc
        have hm : s.name ∈ t.map (·.name) := List.mem_map.mpr ⟨s, hs, rfl⟩
        rw [List.map_cons, List.nodup_cons] at hnod
        exact hnod.1 (hc ▸ hm)
      rw [List.find?_cons_of_neg _ (by simpa using hne)]
      rw [List.map_cons, List.nodup_cons] at hnod
      exact ih hnod.2 hs

theorem slotLookup_self (slots : List MSlot) (s : MSlot)
    (hnod : (slots.map (·.name)).Nodup) (hs : s ∈ slots) :
    slotLookup slots s.name = some s := by
  unfold slotLookup
  refine find_name_self s slots.reverse ?_ (List.mem_reverse.mpr hs)
  rw [List.map_reverse]
  exact List.nodup_reverse.mpr hnod

theorem dfsList_error {σ : Type} {nbors : String → List String}
    {visit : σ → String → Except CErr σ} {revisit finish : σ → String → σ} (fuel : Nat)
    (hdfs : ∀ (st : σ) (visited : List String) (v : String) (e : CErr),
      dfs nbors visit revisit finish fuel st visited v = .error e →
      e = .outOfFuel ∨ ∃ st2 v2, visit st2 v2 = .error e) :
    ∀ (st : σ) (visited ws : List String) (e : CErr),
      dfsList nbors visit revisit finish fuel st visited ws = .error e →
      e = .outOfFuel ∨ ∃ st2 v2, visit st2 v2 = .error e := by
  intro st visited ws
  induction ws generalizing st visited with
  | nil =>
    intro e h
    rw [dfsList_nil] at h
    cases h
  | cons w ws ih =>
    intro e h
    rw [dfsList_cons] at h
    cases hd : dfs nbors visit revisit finish fuel st visited w with
    | error e2 =>
      simp only [hd] at h
      cases h
      exact hdfs st visited w e hd
    | ok p =>
      obtain ⟨st1, vis1⟩ := p
      simp only [hd] at h
      exact ih st1 vis1 e h

theorem dfs_error {σ : Type} {nbors : String → List String}
    {visit : σ → String → Except CErr σ} {revisit finish : σ → String → σ} :
    ∀ (fuel : Nat) (st : σ) (visited : List String) (v : String) (e : CErr),
      dfs nbors visit revisit finish fuel st visited v = .error e →
      e = .outOfFuel ∨ ∃ st2 v2, visit st2 v2 = .error e := by
  intro fuel
  induction fuel with
  | zero =>
    intro st visited v e h
    rw [dfs_zero] at h
    cases h
    exact Or.inl rfl
  | succ fuel ih =>
    intro st visited v e h
    rw [dfs_succ] at h
    by_cases hm : v ∈ visited
    · rw [if_pos hm] at h
      cases h
    · rw [if_neg hm] at h
      cases hvv : visit st v with
      | error e2 =>
        simp only [hvv] at h
        cases h
        exact Or.inr ⟨st, v, hvv⟩
      | ok st1 =>
        simp only [hvv] at h
        cases hdl : dfsList nbors visit revisit finish fuel st1 (v :: visited)
            (nbors v) with
        | error e2 =>
          simp only [hdl] at h
          cases h
          exact dfsList_error fuel ih st1 (v :: visited) (nbors v) e hdl
        | ok p =>
          obtain ⟨st2, vis2⟩ := p
          simp only [hdl] at h
          cases h

theorem slotLookup_none_not_mem (slots : List MSlot) (v : String)
    (h : slotLookup slots v = none) : v ∉ slots.map (·.name) := by
  intro hv
  rw [List.mem_map] at hv
  obtain ⟨s, hs, rfl⟩ := hv
  unfold slotLookup at h
  rw [List.find?_eq_none] at h
  exact h s (List.mem_reverse.mpr hs) (by simp)

theorem firstVisit_err_dangling (slots : List MSlot) :
    ∀ (st : P1State) (v : String) (e : CErr), firstVisit slots st v = .error e →
      e = .keyError v ∧ v ∉ slotUniv slots := by
  intro st v e h
  unfold firstVisit at h
  by_cases hv : v = "start"
  · rw [if_pos hv] at h
    cases h
  · rw [if_neg hv] at h
    cases hl : slotLookup slots v with
    | none =>
      simp only [hl] at h
      cases h
      refine ⟨rfl, ?_⟩
      intro hu
      rcases List.mem_cons.mp hu with h1 | h1
      · exact hv h1
      · exact slotLookup_none_not_mem slots v hl h1
    | some slot =>
      simp only [hl] at h
      cases hfsa : slot.fsa with
      | some fsa => simp [hfsa] at h
      | none => simp [hfsa] at h

/-!  The ten claims. -/

/-- C1: for every input slot set in which no slot has `start = true`,
`compile` raises `NoStartingSlot` and returns no WFST. -/
theorem c1_no_starting_slot (slots : List MSlot) (h : ∀ s ∈ slots, s.start = false) :
    compile slots = .error .noStartingSlot := by
  unfold compile compileM compileBuildFull
  have hf : slots.filter (·.start) = [] :=
    List.filter_eq_nil_iff.mpr (fun a ha => by simp [h a ha])
  have hs : startingNames slots = [] := by
    unfold startingNames
    rw [hf]
    rfl
  rw [if_pos hs]
  rfl

theorem c1_witness :
    (∀ s ∈ noStartSlots, s.start = false) ∧
    compile noStartSlots = .error .noStartingSlot :=
  ⟨by decide, c1_no_starting_slot noStartSlots (by decide)⟩

/-- C2: on every slot set — cyclic continuation graphs included — `compile`
terminates (the fuelled DFS never exhausts its fuel), and when pass 1
succeeds, the visited set is duplicate-free and a vertex is visited (and
given an entry vertex in `start_states`) exactly when it is reachable from
the virtual `"start"` vertex; unreachable slots get no entry. -/
theorem c2_reachable_once (slots : List MSlot) :
    compileM slots ≠ .error .outOfFuel ∧
    (∀ st1 vis1, pass1 slots = .ok (st1, vis1) →
      vis1.Nodup ∧
      (∀ v, v ∈ vis1 ↔ Reach (neighbors slots) "start" v) ∧
      (∀ v, (assocLookup st1.startStates v).isSome ↔
        Reach (neighbors slots) "start" v)) := by
  refine ⟨compileM_not_outOfFuel slots, ?_⟩
  intro st1 vis1 h
  obtain ⟨hnd, hiff, hkeys, _⟩ := pass1_facts slots st1 vis1 h
  exact ⟨hnd, hiff, fun v => (hkeys v).trans (hiff v)⟩

theorem c2_witness :
    (compileM cycSlots ≠ .error .outOfFuel) ∧
    ((["X", "start"] : List String).Nodup ∧
     (∀ v, v ∈ (["X", "start"] : List String) ↔ Reach (neighbors cycSlots) "start" v) ∧
     (∀ v, (assocLookup cycP1State.startStates v).isSome ↔
       Reach (neighbors cycSlots) "start" v)) :=
  ⟨(c2_reachable_once cycSlots).1,
   (c2_reachable_once cycSlots).2 cycP1State ["X", "start"] (by decide)⟩

/-- C3: in pass 2, when a rule's continuation list carries several
Terminal entries with different weights for the same final vertex, the
vertex's final weight in the wired automaton is their semiring sum
(tropical min): repeated `set_final` calls combine via `⊕` rather than
overwrite.  (The `set_final` contract is modelled from the spec, as the
substrate is outside this repository; vertex `2` is the rule's final
vertex.) -/
theorem c3_terminal_weights_min (w1 w2 : ℚ) (h : w1 ≠ w2) :
    (compileBuildFull (twoTerminalSlots w1 w2)).map (fun t => t.1.final 2) =
      .ok (Weight.fin (min w1 w2)) := by
  rfl

theorem c3_witness :
    ((3 : ℚ) ≠ 2) ∧
    (compileBuildFull (twoTerminalSlots 3 2)).map (fun t => t.1.final 2) =
      .ok (Weight.fin (min 3 2)) :=
  ⟨by norm_num, c3_terminal_weights_min 3 2 (by norm_num)⟩

/-- C4 counterexample: on a slot set whose only rule names a continuation
that is not in the set, `compile` does *not* silently skip the name and
return a WFST — pass 1 aborts with a lookup error (`KeyError`) for the
unresolved name. -/
theorem c4_counterexample :
    compile danglingSlots = .error (.keyError "Missing") := by decide

/-- C4 (amended): whenever a name that is not a slot (and not the virtual
root) is reachable through the continuation graph from the start, `compile`
raises a lookup error (`KeyError`) for an unresolved name during pass 1:
pass 1 itself returns the `KeyError` (the DFS may reach some other dangling
name first, so the failing key is some unresolved name) and `compile`
surfaces that very error; no WFST is returned. -/
theorem c4_dangling_raises (slots : List MSlot) (v : String)
    (hr : Reach (neighbors slots) "start" v) (hnv : v ∉ slotUniv slots) :
    ∃ w, w ∉ slotUniv slots ∧ pass1 slots = .error (.keyError w) ∧
      compile slots = .error (.keyError w) := by
  have hvstart : v ≠ "start" := fun hc => hnv (hc ▸ List.mem_cons_self _ _)
  have hs : ¬startingNames slots = [] := by
    intro hse
    rcases Relation.ReflTransGen.cases_head hr with hc | ⟨c, hc, _⟩
    · exact hvstart hc.symm
    · rw [neighbors_start, hse] at hc
      exact absurd hc (List.not_mem_nil c)
  cases hp : pass1 slots with
  | ok p =>
    obtain ⟨st1, vis1⟩ := p
    obtain ⟨_, hiff, _, hsub⟩ := pass1_facts slots st1 vis1 hp
    exact absurd (hsub ((hiff v).mpr hr)) hnv
  | error e =>
    have hne : e ≠ .outOfFuel := fun hc => pass1_not_outOfFuel slots (hc ▸ hp)
    have hpd := hp
    unfold pass1 at hpd
    rcases dfs_error (dfsFuel slots) (⟨Fst.empty, [], initFinals slots⟩ : P1State)
        [] "start" e hpd with
      h0 | ⟨st2, v2, hv2⟩
    · exact absurd h0 hne
    · obtain ⟨heq, hdang⟩ := firstVisit_err_dangling slots st2 v2 e hv2
      subst heq
      refine ⟨v2, hdang, rfl, ?_⟩
      unfold compile compileM compileBuildFull
      rw [if_neg hs]
      simp only [hp]
      rfl

theorem c4_witness :
    Reach (neighbors danglingSlots) "start" "Missing" ∧
    ("Missing" ∉ slotUniv danglingSlots) ∧
    ∃ w, w ∉ slotUniv danglingSlots ∧ pass1 danglingSlots = .error (.keyError w) ∧
      compile danglingSlots = .error (.keyError w) :=
  have h1 : Reach (neighbors danglingSlots) "start" "Missing" :=
    Relation.ReflTransGen.tail
      (Relation.ReflTransGen.single
        (show "A" ∈ neighbors danglingSlots "start" by decide))
      (show "Missing" ∈ neighbors danglingSlots "A" by decide)
  ⟨h1, by decide, c4_dangling_raises danglingSlots "Missing" h1 (by decide)⟩

/-- C5 counterexample: in the automaton the two passes build on a concrete
slot set, the only arc leaving the virtual start vertex (vertex `0`,
recorded for `"start"` in `start_states`) has weight `0.0` — the tropical
semiring one — not `0̄ = +∞` as the claim states. -/
theorem c5_counterexample :
    (compileBuildFull cycSlots).map (fun t => assocLookup t.2.1 "start") = .ok (some 0) ∧
    (compileBuildFull cycSlots).map (fun t =>
      (t.1.arcs.filter (fun p => decide (p.1 = 0))).map (fun p => p.2.weight)) =
      .ok [Weight.fin 0] ∧
    Weight.fin 0 ≠ Weight.inf := by decide

/-- C5 (amended): for every starting slot `S`, pass 2 adds an epsilon arc
(labels `0`/`0`) from the virtual start vertex to `start_states[S]` whose
weight is `0.0` — the tropical semiring *one* (a free transition), not the
semiring zero. -/
theorem c5_start_arcs_weight_one (slots : List MSlot) (f : Fst)
    (ss : List (String × Nat)) (fins : List (String × List Nat)) (S : String)
    (h : compileBuildFull slots = .ok (f, ss, fins)) (hS : S ∈ startingNames slots) :
    ∃ root d, assocLookup ss "start" = some root ∧ assocLookup ss S = some d ∧
      (root, (⟨0, 0, Weight.fin 0, d⟩ : Arc)) ∈ f.arcs := by
  unfold compileBuildFull at h
  by_cases hs : startingNames slots = []
  · rw [if_pos hs] at h
    cases h
  · rw [if_neg hs] at h
    cases hp : pass1 slots with
    | error e => simp only [hp] at h; cases h
    | ok p =>
      obtain ⟨st1, vis1⟩ := p
      simp only [hp] at h
      cases hd : dfs (neighbors slots) (secondPass slots st1.startStates st1.finals)
          revisitSlot finishSlot (dfsFuel slots) st1.fst [] "start" with
      | error e => simp only [hd] at h; cases h
      | ok p2 =>
        obtain ⟨f2, vis2⟩ := p2
        simp only [hd] at h
        cases h
        obtain ⟨_, hiff, hkeys, _⟩ := pass1_facts slots st1 vis1 hp
        have hstartvis : "start" ∈ vis1 := (hiff "start").mpr Relation.ReflTransGen.refl
        have hroot0 : (assocLookup st1.startStates "start").isSome :=
          (hkeys "start").mpr hstartvis
        cases hroot : assocLookup st1.startStates "start" with
        | none => rw [hroot] at hroot0; cases hroot0
        | some root =>
          have hall : ∀ S2, S2 ∈ startingNames slots →
              (assocLookup st1.startStates S2).isSome := by
            intro S2 hS2
            refine (hkeys S2).mpr ((hiff S2).mpr ?_)
            exact Relation.ReflTransGen.single (by rw [neighbors_start]; exact hS2)
          have hSd : (assocLookup st1.startStates S).isSome := hall S hS
          cases hld : assocLookup st1.startStates S with
          | none => rw [hld] at hSd; cases hSd
          | some d =>
            exact ⟨root, d, rfl, rfl,
              pass2_start_arcs slots st1 root f vis2 hroot hall hd S d hS hld⟩

theorem c5_witness :
    compileBuildFull cycSlots = .ok (cycBuildFst, [("start", 0), ("X", 1)], [("X", [2])]) ∧
    ("X" ∈ startingNames cycSlots) ∧
    ∃ root d, assocLookup [("start", 0), ("X", 1)] "start" = some root ∧
      assocLookup [("start", 0), ("X", 1)] "X" = some d ∧
      (root, (⟨0, 0, Weight.fin 0, d⟩ : Arc)) ∈ cycBuildFst.arcs :=
  ⟨by decide, by decide,
   c5_start_arcs_weight_one cycSlots cycBuildFst [("start", 0), ("X", 1)] [("X", [2])] "X"
     (by decide) (by decide)⟩

/-- C6: in the `StemGuesser` scanner, a `*` at position `i` (not the
first character) applied to a frame that is not an open scope/union
replaces the top frame's language by its Kleene closure, and additionally
unions the empty string into it exactly when the frame stack holds a
single frame at the final regex position, or the quantified frame's kind
is sigma. -/
theorem c6_star_epsilon (alpha : Alphabet) (n i : Nat) (br : List Char)
    (k : FrameKind) (e : RE) (rest : List (FrameKind × RE))
    (hi : i ≠ 0) (hk1 : k ≠ .scope) (hk2 : k ≠ .union) :
    sgStep alpha n i '*' ⟨br, (k, e) :: rest⟩ =
      .ok ⟨br, (k, if (rest = [] ∧ i = n - 1) ∨ k = .sigma
                   then RE.alt (RE.star e) RE.eps
                   else RE.star e) :: rest⟩ := by
  unfold sgStep
  cases k with
  | scope => exact absurd rfl hk1
  | union => exact absurd rfl hk2
  | sigma => simp [hi]
  | symbol =>
    simp [hi]
    split <;> rfl
  | processed =>
    simp [hi]
    split <;> rfl

theorem c6_witness :
    ((1 : Nat) ≠ 0) ∧ (FrameKind.symbol ≠ FrameKind.scope) ∧
    (FrameKind.symbol ≠ FrameKind.union) ∧
    sgStep [] 2 1 '*' ⟨[], [(FrameKind.symbol, RE.sym "a")]⟩ =
      .ok ⟨[], [(FrameKind.symbol,
        if (([] : List (FrameKind × RE)) = [] ∧ 1 = 2 - 1) ∨
            FrameKind.symbol = FrameKind.sigma
        then RE.alt (RE.star (RE.sym "a")) RE.eps
        else RE.star (RE.sym "a"))]⟩ :=
  ⟨by decide, by decide, by decide,
   c6_star_epsilon [] 2 1 [] .symbol (.sym "a") [] (by decide) (by decide) (by decide)⟩

/-- C7: after verification and epsilon removal, `compile` runs `optimize`
exactly when the epsilon-free automaton is both input- and
output-deterministic, and for a non-deterministic automaton it returns the
epsilon-removed automaton unchanged. -/
theorem c7_conditional_optimize (slots : List MSlot) (f : Fst)
    (ss : List (String × Nat)) (fins : List (String × List Nat))
    (h : compileBuildFull slots = .ok (f, ss, fins)) (hver : f.verify = true) :
    ((f.rmepsilon.isIDeterministic && f.rmepsilon.isODeterministic) = true →
      compile slots = .ok f.rmepsilon.optimize) ∧
    ((f.rmepsilon.isIDeterministic && f.rmepsilon.isODeterministic) = false →
      compile slots = .ok f.rmepsilon) := by
  unfold compile compileM
  simp only [h]
  rw [if_neg (by rw [hver]; simp)]
  constructor
  · intro hdet
    rw [if_pos hdet]
    rfl
  · intro hdet
    rw [if_neg (by rw [hdet]; simp)]
    rfl

theorem c7_witness :
    compileBuildFull cycSlots = .ok (cycBuildFst, [("start", 0), ("X", 1)], [("X", [2])]) ∧
    cycBuildFst.verify = true ∧
    ((cycBuildFst.rmepsilon.isIDeterministic && cycBuildFst.rmepsilon.isODeterministic) =
      true) ∧
    compile cycSlots = .ok cycBuildFst.rmepsilon.optimize :=
  ⟨by decide, by decide, by decide,
   (c7_conditional_optimize cycSlots cycBuildFst [("start", 0), ("X", 1)] [("X", [2])]
     (by decide) (by decide)).1 (by decide)⟩

/-- C8: the pass-1 copy of a `StemGuesser` acceptor maps acceptor vertex
`0` to the slot's entry vertex and every other vertex `i` to
`old_num_states + i − 1` (one contiguous freshly allocated block),
re-emits every arc over the translated endpoints, and appends to
`final_states` the translated images of exactly those acceptor vertices
whose final weight differs from the tropical semiring zero. -/
theorem c8_guesser_copy (f : Fst) (slotStart : Nat) (fsa : Fst) :
    (copyGuesser f slotStart fsa).1.numStates = f.numStates + (fsa.numStates - 1) ∧
    (copyGuesser f slotStart fsa).1.arcs =
      f.arcs ++ (List.range fsa.numStates).flatMap (fun s =>
        (fsa.arcsFrom s).map (fun a =>
          ((if s = 0 then slotStart else f.numStates + s - 1),
           (⟨a.ilabel, a.olabel, a.weight,
             if a.nextstate = 0 then slotStart
             else f.numStates + a.nextstate - 1⟩ : Arc)))) ∧
    (copyGuesser f slotStart fsa).2 =
      ((List.range fsa.numStates).filter (fun s => decide (fsa.final s ≠ .inf))).map
        (fun s => if s = 0 then slotStart else f.numStates + s - 1) := by
  rw [copyGuesser_spec]
  unfold trState
  exact ⟨rfl, rfl, rfl⟩

/-- C9 counterexample: a materialized starting slot with an empty rules
list has an *empty* `final_states` after `compile` returns (it was
processed — it has an entry vertex in `start_states` — yet nothing was
appended), so the claim's "each processed slot's final_states is
non-empty" fails. -/
theorem c9_counterexample :
    (compileM emptyRulesSlots).map (fun p => p.2.map (·.finalStates)) = .ok [[]] ∧
    (compileBuildFull emptyRulesSlots).map (fun t => (assocLookup t.2.1 "a").isSome) =
      .ok true := by decide

/-- C9 (amended): `compile` mutates its input: for every materialized slot
(one with an entry in `start_states`), the `final_states` scratch after
the passes is the slot's previous `final_states` with a block of new
vertex ids appended — never cleared — where the block has one entry per
rule for a regular slot and one entry per accepting acceptor state for a
`StemGuesser`.  Because the initial `final_states` is arbitrary here, a
second call to `compile` on the mutated slots observes (and extends) the
entries accumulated by the first call. -/
theorem c9_final_states_accumulate (slots : List MSlot) (f : Fst)
    (ss : List (String × Nat)) (fins : List (String × List Nat)) (s : MSlot)
    (hnod : (slots.map (·.name)).Nodup)
    (h : compileBuildFull slots = .ok (f, ss, fins))
    (hs : s ∈ slots) (hname : s.name ≠ "start")
    (hm : (assocLookup ss s.name).isSome) :
    ∃ l, assocLookup fins s.name = some (s.finalStates ++ l) ∧
      (s.fsa = none → l.length = s.rules.length) ∧
      (∀ g, s.fsa = some g → l.length = guesserAccCount g) := by
  unfold compileBuildFull at h
  by_cases hstart : startingNames slots = []
  · rw [if_pos hstart] at h
    cases h
  · rw [if_neg hstart] at h
    cases hp : pass1 slots with
    | error e => simp only [hp] at h; cases h
    | ok p =>
      obtain ⟨st1, vis1⟩ := p
      simp only [hp] at h
      cases hd : dfs (neighbors slots) (secondPass slots st1.startStates st1.finals)
          revisitSlot finishSlot (dfsFuel slots) st1.fst [] "start" with
      | error e => simp only [hd] at h; cases h
      | ok p2 =>
        obtain ⟨f2, vis2⟩ := p2
        simp only [hd] at h
        cases h
        obtain ⟨htrack, hkeysF⟩ := pass1_finals slots st1 vis1 hp
        obtain ⟨_, _, hkeys, _⟩ := pass1_facts slots st1 vis1 hp
        have hvis : s.name ∈ vis1 := (hkeys s.name).mp hm
        obtain ⟨l, hl, hq⟩ := htrack s.name hvis
        have hinit : assocLookup (initFinals slots) s.name = some s.finalStates :=
          initFinals_lookup slots s hnod hs
        have hsome : (assocLookup st1.finals s.name).isSome :=
          hkeysF s.name (by rw [hinit]; rfl)
        cases hlf : assocLookup st1.finals s.name with
        | none => rw [hlf] at hsome; cases hsome
        | some X =>
          have hX : X = s.finalStates ++ l := by
            rw [hlf, hinit] at hl
            simpa using hl
          have hsl : slotLookup slots s.name = some s := slotLookup_self slots s hnod hs
          obtain ⟨hq1, hq2⟩ := hq hname s hsl
          exact ⟨l, by rw [hX], hq1, hq2⟩

theorem c9_witness :
    ((cycSlots.map (·.name)).Nodup) ∧
    (compileBuildFull cycSlots = .ok (cycBuildFst, [("start", 0), ("X", 1)], [("X", [2])])) ∧
    (cycSlotX ∈ cycSlots) ∧
    ∃ l, assocLookup [("X", [2])] cycSlotX.name = some (cycSlotX.finalStates ++ l) ∧
      (cycSlotX.fsa = none → l.length = cycSlotX.rules.length) ∧
      (∀ g, cycSlotX.fsa = some g → l.length = guesserAccCount g) :=
  ⟨by decide, by decide, by decide,
   c9_final_states_accumulate cycSlots cycBuildFst [("start", 0), ("X", 1)] [("X", [2])]
     cycSlotX (by decide) (by decide) (by decide) (by decide) (by decide)⟩

/-- C10: a user slot named `"start"` is silently shadowed by the virtual
root: the DFS callbacks handle the vertex `"start"` before consulting the
slot map, so such a slot's rules are never materialized — the WFST
`compile` returns (and whether it errors) is invariant under replacing
that slot's rules by anything whatsoever. -/
theorem c10_start_slot_shadowed (slots : List MSlot) (r : List Rule)
    (h : (slotLookup slots "start").isSome) :
    compile (replaceStartRules slots r) = compile slots := by
  unfold compile compileM
  rw [replace_compileBuildFull]
  cases hb : compileBuildFull slots with
  | error e => rfl
  | ok p =>
    obtain ⟨f, ss, fins⟩ := p
    simp only []
    by_cases hver : f.verify = false
    · rw [if_pos hver, if_pos hver]
    · rw [if_neg hver, if_neg hver]
      by_cases hdet : (f.rmepsilon.isIDeterministic && f.rmepsilon.isODeterministic) = true
      · rw [if_pos hdet, if_pos hdet]
        rfl
      · rw [if_neg hdet, if_neg hdet]
        rfl

theorem c10_witness :
    ((slotLookup startNameSlots "start").isSome) ∧
    compile (replaceStartRules startNameSlots []) = compile startNameSlots :=
  ⟨by decide, c10_start_slot_shadowed startNameSlots [] (by decide)⟩

end Morphotactics
